import Mathlib

/-!
Formal model of the Puppetmaster transactional-memory simulator core.

This file is a shallow embedding of the data model and the algorithms in
`pmtypes.py`, `schedulers.py` and `sets.py`, together with the
discrete-event driver.  Python integers are modelled as `Nat` (as `Int`
where Python indices can be negative), Python lists as `List`, exact
(Ideal) address sets as `Finset Nat`, and bit vectors as `Nat` with
bitwise operations.  Mutation is modelled by explicit state passing.
-/

namespace PM

/-- A transaction (`pmtypes.Transaction`): a unique id issued by
`UniqIdMaker` (Python uses it for equality and hashing), a read set, a
write set and an execution time.  The address-set representation is a
type parameter, mirroring the fact that `read_set`/`write_set` hold
whatever kind of set the active `AddressSetMaker` builds. -/
structure Transaction (σ : Type) where
  id : Nat
  read_set : σ
  write_set : σ
  time : Nat
deriving DecidableEq

/-- A set of transactions together with the running unions of their read
and write sets (`pmtypes.TransactionSet`).  Python stores the members in
a `set`; we use a duplicate-free list (kept in insertion order, Python's
iteration order over a set being unspecified).  In Python the
`read_set`/`write_set` attributes do not exist before the first `add`;
we keep total fields initialised with an empty set value, which is
unobservable because `compatible` guards on emptiness of
`transactions`. -/
structure TransactionSet (σ : Type) where
  transactions : List (Transaction σ)
  read_set : σ
  write_set : σ
deriving DecidableEq

variable {σ : Type} [DecidableEq σ]

/-- `TransactionSet()` with no members.  `e0` is the empty address-set
value of the chosen representation. -/
def TransactionSet.empty (e0 : σ) : TransactionSet σ :=
  ⟨[], e0, e0⟩

/-- `TransactionSet.add`: insert the transaction into the member set and
extend both running unions (`self.read_set = transaction.read_set |
self.read_set`, and likewise for writes).  `uni` is the `__or__` of the
address-set representation.  As in Python, the unions are extended even
when the transaction is already a member (a no-op for every union used
here). -/
def TransactionSet.add (uni : σ → σ → σ) (s : TransactionSet σ) (tr : Transaction σ) :
    TransactionSet σ :=
  { transactions := if tr ∈ s.transactions then s.transactions else s.transactions ++ [tr]
    read_set := uni tr.read_set s.read_set
    write_set := uni tr.write_set s.write_set }

/-- `TransactionSet.discard`: remove a transaction from the member set.
As the source warns, the combined read and write sets are NOT updated. -/
def TransactionSet.discard (s : TransactionSet σ) (tr : Transaction σ) :
    TransactionSet σ :=
  { s with transactions := s.transactions.erase tr }

/-- The common core of `TransactionSet.compatible`: Python duck-types the
argument, reading only its `read_set`/`write_set` attributes, so we take
the two sets directly.  `dis` models `not (a & b)` — the emptiness test
of an intersection in the chosen representation. -/
def TransactionSet.compatibleRW (dis : σ → σ → Bool) (s : TransactionSet σ)
    (r w : σ) : Bool :=
  if s.transactions.isEmpty then true
  else dis r s.write_set && dis w s.read_set && dis w s.write_set

/-- `TransactionSet.compatible` applied to a `Transaction`. -/
def TransactionSet.compatible (dis : σ → σ → Bool) (s : TransactionSet σ)
    (tr : Transaction σ) : Bool :=
  s.compatibleRW dis tr.read_set tr.write_set

/-- `TransactionSet.compatible` applied to another `TransactionSet`
(as done by the tournament scheduler: `t1.compatible(t2)`). -/
def TransactionSet.compatibleTS (dis : σ → σ → Bool) (s t2 : TransactionSet σ) : Bool :=
  s.compatibleRW dis t2.read_set t2.write_set

/-- `TransactionSet(iterable)`: build a set by `add`-ing each element in
turn, as the Python constructor does. -/
def TransactionSet.ofList (uni : σ → σ → σ) (e0 : σ) (l : List (Transaction σ)) :
    TransactionSet σ :=
  l.foldl (TransactionSet.add uni) (TransactionSet.empty e0)

/-- `t1 |= t2` on transaction sets: Python's `MutableSet.__ior__` adds
every member of `t2` to `t1` one by one. -/
def TransactionSet.ior (uni : σ → σ → σ) (t1 t2 : TransactionSet σ) :
    TransactionSet σ :=
  t2.transactions.foldl (TransactionSet.add uni) t1

/-! ### The Ideal (exact) address-set representation

`IdealAddressSetMaker` wraps the built-in `set`; union is `|`, and
`not (a & b)` is the emptiness test of the exact intersection. -/

/-- Ideal union: exact set union. -/
def iUni (a b : Finset Nat) : Finset Nat := a ∪ b

/-- Ideal disjointness test: `not (a & b)` on exact sets. -/
def iDis (a b : Finset Nat) : Bool := decide (a ∩ b = ∅)

/-- Union of the members' read sets (the spec's read union). -/
def unionReads (l : List (Transaction (Finset Nat))) : Finset Nat :=
  l.foldr (fun t a => t.read_set ∪ a) ∅

/-- Union of the members' write sets (the spec's write union). -/
def unionWrites (l : List (Transaction (Finset Nat))) : Finset Nat :=
  l.foldr (fun t a => t.write_set ∪ a) ∅

theorem unionReads_nil : unionReads [] = ∅ := rfl

theorem unionWrites_nil : unionWrites [] = ∅ := rfl

/-- C2: for a `TransactionSet` whose stored unions agree with the unions
of its members' sets, `compatible(tr)` returns `True` iff the
transaction's read set misses the write union and its write set misses
both unions; an empty `TransactionSet` is compatible with every
transaction. -/
theorem compatible_iff_ideal (s : TransactionSet (Finset Nat))
    (t : Transaction (Finset Nat))
    (hr : s.read_set = unionReads s.transactions)
    (hw : s.write_set = unionWrites s.transactions) :
    (TransactionSet.compatible iDis s t = true ↔
      (t.read_set ∩ unionWrites s.transactions = ∅ ∧
       t.write_set ∩ unionReads s.transactions = ∅ ∧
       t.write_set ∩ unionWrites s.transactions = ∅)) ∧
    (s.transactions = [] → TransactionSet.compatible iDis s t = true) := by
  constructor
  · cases hempty : s.transactions with
    | nil =>
        simp [TransactionSet.compatible, TransactionSet.compatibleRW, hempty,
          unionReads_nil, unionWrites_nil]
    | cons a l =>
        simp only [TransactionSet.compatible, TransactionSet.compatibleRW, hempty,
          List.isEmpty_cons, Bool.false_eq_true, if_false, Bool.and_eq_true,
          iDis, decide_eq_true_eq, hr, hw]
        tauto
  · intro h
    simp [TransactionSet.compatible, TransactionSet.compatibleRW, h]

def c2s : TransactionSet (Finset Nat) :=
  TransactionSet.ofList iUni ∅ [⟨0, {1, 2}, {3}, 7⟩]

def c2t : Transaction (Finset Nat) := ⟨1, {4}, {3}, 5⟩

theorem compatible_iff_ideal_witness :
    (TransactionSet.compatible iDis c2s c2t = true ↔
      (c2t.read_set ∩ unionWrites c2s.transactions = ∅ ∧
       c2t.write_set ∩ unionReads c2s.transactions = ∅ ∧
       c2t.write_set ∩ unionWrites c2s.transactions = ∅)) ∧
    (c2s.transactions = [] → TransactionSet.compatible iDis c2s c2t = true) :=
  compatible_iff_ideal c2s c2t (by decide) (by decide)

/-- C10: `discard` removes only the membership but leaves the combined
read and write unions untouched, so as long as the set is still
non-empty, `compatible` answers exactly as before the discard, still
counting conflicts against the discarded transaction's addresses. -/
theorem discard_keeps_unions (s : TransactionSet (Finset Nat))
    (t u : Transaction (Finset Nat)) :
    ((s.add iUni t).discard t).read_set = (s.add iUni t).read_set ∧
    ((s.add iUni t).discard t).write_set = (s.add iUni t).write_set ∧
    (((s.add iUni t).discard t).transactions ≠ [] →
      TransactionSet.compatible iDis ((s.add iUni t).discard t) u =
        TransactionSet.compatible iDis (s.add iUni t) u) ∧
    (((s.add iUni t).discard t).transactions ≠ [] →
      (u.read_set ∩ t.write_set ≠ ∅ ∨ u.write_set ∩ t.read_set ≠ ∅ ∨
        u.write_set ∩ t.write_set ≠ ∅) →
      TransactionSet.compatible iDis ((s.add iUni t).discard t) u = false) := by
  refine ⟨rfl, rfl, ?_, ?_⟩
  · intro h2
    have h1 : (s.add iUni t).transactions ≠ [] := by
      intro hnil
      exact h2 (by simp [TransactionSet.discard, hnil])
    simp only [TransactionSet.compatible, TransactionSet.compatibleRW,
      List.isEmpty_eq_true]
    rw [if_neg h2, if_neg h1]
    rfl
  · intro h2 hconf
    have hr : ((s.add iUni t).discard t).read_set = t.read_set ∪ s.read_set := rfl
    have hw : ((s.add iUni t).discard t).write_set = t.write_set ∪ s.write_set := rfl
    have hvne : ¬((s.add iUni t).discard t).transactions.isEmpty = true := by
      simpa [List.isEmpty_eq_true] using h2
    simp only [TransactionSet.compatible, TransactionSet.compatibleRW, if_neg hvne, hr, hw]
    rcases hconf with h | h | h
    · have hf : iDis u.read_set (t.write_set ∪ s.write_set) = false := by
        simp only [iDis, decide_eq_false_iff_not]
        intro he
        exact h (Finset.subset_empty.mp
          (he ▸ Finset.inter_subset_inter (Finset.Subset.refl _) Finset.subset_union_left))
      simp [hf]
    · have hf : iDis u.write_set (t.read_set ∪ s.read_set) = false := by
        simp only [iDis, decide_eq_false_iff_not]
        intro he
        exact h (Finset.subset_empty.mp
          (he ▸ Finset.inter_subset_inter (Finset.Subset.refl _) Finset.subset_union_left))
      simp [hf]
    · have hf : iDis u.write_set (t.write_set ∪ s.write_set) = false := by
        simp only [iDis, decide_eq_false_iff_not]
        intro he
        exact h (Finset.subset_empty.mp
          (he ▸ Finset.inter_subset_inter (Finset.Subset.refl _) Finset.subset_union_left))
      simp [hf]

def c10s : TransactionSet (Finset Nat) :=
  TransactionSet.ofList iUni ∅ [⟨2, {8}, {9}, 3⟩]

def c10t : Transaction (Finset Nat) := ⟨3, {1}, {2}, 4⟩

def c10u : Transaction (Finset Nat) := ⟨4, {2}, {5}, 6⟩

theorem discard_keeps_unions_witness :
    ((c10s.add iUni c10t).discard c10t).read_set = (c10s.add iUni c10t).read_set ∧
    TransactionSet.compatible iDis ((c10s.add iUni c10t).discard c10t) c10u =
      TransactionSet.compatible iDis (c10s.add iUni c10t) c10u ∧
    TransactionSet.compatible iDis ((c10s.add iUni c10t).discard c10t) c10u = false :=
  ⟨(discard_keeps_unions c10s c10t c10u).1,
   (discard_keeps_unions c10s c10t c10u).2.2.1 (by decide),
   (discard_keeps_unions c10s c10t c10u).2.2.2 (by decide) (by decide)⟩

/-! ### The greedy scheduler (`schedulers.GreedyScheduler.schedule`) -/

/-- The single pass of `GreedyScheduler.schedule`: iterate over the
pending transactions, adding each one that is compatible with `ongoing`
and with the candidates accumulated so far; stop early once the
candidate count reaches `max_count` (when given). -/
def greedyLoop (uni : σ → σ → σ) (dis : σ → σ → Bool) (ongoing : TransactionSet σ)
    (maxCount : Option Nat) :
    TransactionSet σ → List (Transaction σ) → TransactionSet σ
  | cand, [] => cand
  | cand, tr :: rest =>
    if ongoing.compatible dis tr && cand.compatible dis tr then
      let cand' := cand.add uni tr
      if maxCount = some cand'.transactions.length then cand'
      else greedyLoop uni dis ongoing maxCount cand' rest
    else greedyLoop uni dis ongoing maxCount cand rest

/-- `GreedyScheduler.schedule`: returns the single pair
`(candidates, op_time)`.  `e0` is the empty set built by the maker. -/
def greedySchedule (uni : σ → σ → σ) (dis : σ → σ → Bool) (e0 : σ) (opTime : Nat)
    (ongoing : TransactionSet σ) (pending : List (Transaction σ))
    (maxCount : Option Nat) : List (TransactionSet σ × Nat) :=
  [(greedyLoop uni dis ongoing maxCount (TransactionSet.empty e0) pending, opTime)]

theorem add_transactions_ne_nil (s : TransactionSet σ) (uni : σ → σ → σ)
    (tr : Transaction σ) : (s.add uni tr).transactions ≠ [] := by
  unfold TransactionSet.add
  split
  · intro h
    next hmem => rw [h] at hmem; exact List.not_mem_nil _ hmem
  · simp

theorem mem_add_transactions {s : TransactionSet σ} {uni : σ → σ → σ}
    {tr x : Transaction σ} (h : x ∈ s.transactions) :
    x ∈ (s.add uni tr).transactions := by
  unfold TransactionSet.add
  split <;> simp [h]

theorem self_mem_add_transactions (s : TransactionSet σ) (uni : σ → σ → σ)
    (tr : Transaction σ) : tr ∈ (s.add uni tr).transactions := by
  unfold TransactionSet.add
  split
  · next hmem => exact hmem
  · simp

/-- Compatibility against a grown ideal set cannot recover: if the
candidate set already rejects a transaction, every extension (larger
unions, still non-empty when it was) also rejects it. -/
theorem compatible_false_mono {c c' : TransactionSet (Finset Nat)}
    {tr : Transaction (Finset Nat)}
    (hr : c.read_set ⊆ c'.read_set) (hw : c.write_set ⊆ c'.write_set)
    (hne : c.transactions ≠ [] → c'.transactions ≠ [])
    (h : TransactionSet.compatible iDis c tr = false) :
    TransactionSet.compatible iDis c' tr = false := by
  unfold TransactionSet.compatible TransactionSet.compatibleRW at h ⊢
  by_cases hc : c.transactions.isEmpty
  · rw [if_pos hc] at h; exact absurd h (by simp)
  · rw [if_neg hc] at h
    have hc' : ¬c'.transactions.isEmpty = true := by
      simp only [List.isEmpty_eq_true] at hc ⊢
      exact hne hc
    rw [if_neg hc']
    have key : ∀ a b b' : Finset Nat, b ⊆ b' → iDis a b = false → iDis a b' = false := by
      intro a b b' hbb hf
      simp only [iDis, decide_eq_false_iff_not] at hf ⊢
      intro he
      exact hf (Finset.subset_empty.mp
        (he ▸ Finset.inter_subset_inter (Finset.Subset.refl _) hbb))
    rcases Bool.and_eq_false_iff.mp h with h1 | h2
    · rcases Bool.and_eq_false_iff.mp h1 with ha | hb
      · simp [key _ _ _ hw ha]
      · simp [key _ _ _ hr hb]
    · simp [key _ _ _ hw h2]

/-- Along the greedy pass (unbounded queue) the accumulator only grows:
its unions widen, its members persist, and non-emptiness persists. -/
theorem greedyLoop_extends (ongoing : TransactionSet (Finset Nat))
    (l : List (Transaction (Finset Nat))) (cand : TransactionSet (Finset Nat)) :
    cand.read_set ⊆ (greedyLoop iUni iDis ongoing none cand l).read_set ∧
    cand.write_set ⊆ (greedyLoop iUni iDis ongoing none cand l).write_set ∧
    (∀ x ∈ cand.transactions, x ∈ (greedyLoop iUni iDis ongoing none cand l).transactions) ∧
    (cand.transactions ≠ [] →
      (greedyLoop iUni iDis ongoing none cand l).transactions ≠ []) := by
  induction l generalizing cand with
  | nil => exact ⟨Finset.Subset.refl _, Finset.Subset.refl _, fun x hx => hx, fun h => h⟩
  | cons t rest ih =>
    by_cases hg : ongoing.compatible iDis t && cand.compatible iDis t
    · have heq : greedyLoop iUni iDis ongoing none cand (t :: rest) =
          greedyLoop iUni iDis ongoing none (cand.add iUni t) rest := by
        simp [greedyLoop, hg]
      rw [heq]
      obtain ⟨h1, h2, h3, h4⟩ := ih (cand.add iUni t)
      have ha1 : cand.read_set ⊆ (cand.add iUni t).read_set := by
        unfold TransactionSet.add iUni
        exact Finset.subset_union_right
      have ha2 : cand.write_set ⊆ (cand.add iUni t).write_set := by
        unfold TransactionSet.add iUni
        exact Finset.subset_union_right
      exact ⟨ha1.trans h1, ha2.trans h2,
        fun x hx => h3 x (mem_add_transactions hx),
        fun _ => h4 (add_transactions_ne_nil _ _ _)⟩
    · have heq : greedyLoop iUni iDis ongoing none cand (t :: rest) =
          greedyLoop iUni iDis ongoing none cand rest := by
        simp only [Bool.and_eq_true] at hg
        simp [greedyLoop]
        intro h1 h2
        exact absurd ⟨h1, h2⟩ hg
      rw [heq]
      exact ih cand

theorem greedyLoop_maximal (ongoing : TransactionSet (Finset Nat))
    (l : List (Transaction (Finset Nat))) (cand : TransactionSet (Finset Nat)) :
    ∀ tr ∈ l, tr ∉ (greedyLoop iUni iDis ongoing none cand l).transactions →
      ongoing.compatible iDis tr = false ∨
      TransactionSet.compatible iDis (greedyLoop iUni iDis ongoing none cand l) tr = false := by
  induction l generalizing cand with
  | nil => intro tr h; exact absurd h (List.not_mem_nil _)
  | cons t rest ih =>
    intro tr hmem hnot
    by_cases hg : ongoing.compatible iDis t && cand.compatible iDis t
    · have heq : greedyLoop iUni iDis ongoing none cand (t :: rest) =
          greedyLoop iUni iDis ongoing none (cand.add iUni t) rest := by
        simp [greedyLoop, hg]
      rw [heq] at hnot ⊢
      rcases List.mem_cons.mp hmem with rfl | hr
      · exact absurd ((greedyLoop_extends ongoing rest (cand.add iUni tr)).2.2.1 tr
          (self_mem_add_transactions _ _ _)) hnot
      · exact ih (cand.add iUni t) tr hr hnot
    · have heq : greedyLoop iUni iDis ongoing none cand (t :: rest) =
          greedyLoop iUni iDis ongoing none cand rest := by
        simp only [Bool.and_eq_true] at hg
        simp [greedyLoop]
        intro h1 h2
        exact absurd ⟨h1, h2⟩ hg
      rw [heq] at hnot ⊢
      rcases List.mem_cons.mp hmem with rfl | hr
      · rcases Bool.and_eq_false_iff.mp (Bool.of_not_eq_true hg) with h1 | h2
        · exact Or.inl h1
        · obtain ⟨e1, e2, _, e4⟩ := greedyLoop_extends ongoing rest cand
          exact Or.inr (compatible_false_mono e1 e2 e4 h2)
      · exact ih cand tr hr hnot

theorem greedyLoop_included (ongoing : TransactionSet (Finset Nat))
    (l : List (Transaction (Finset Nat))) (cand : TransactionSet (Finset Nat)) :
    ∀ tr ∈ (greedyLoop iUni iDis ongoing none cand l).transactions,
      tr ∈ cand.transactions ∨
      (ongoing.compatible iDis tr = true ∧
        ∃ l₁ l₂, l = l₁ ++ tr :: l₂ ∧
          TransactionSet.compatible iDis (greedyLoop iUni iDis ongoing none cand l₁) tr
            = true) := by
  induction l generalizing cand with
  | nil => intro tr h; exact Or.inl h
  | cons t rest ih =>
    intro tr hmem
    by_cases hg : ongoing.compatible iDis t && cand.compatible iDis t
    · have heq : greedyLoop iUni iDis ongoing none cand (t :: rest) =
          greedyLoop iUni iDis ongoing none (cand.add iUni t) rest := by
        simp [greedyLoop, hg]
      rw [heq] at hmem
      rcases ih (cand.add iUni t) tr hmem with hin | ⟨hcomp, l₁, l₂, hsplit, hpre⟩
      · unfold TransactionSet.add at hin
        by_cases hmem2 : t ∈ cand.transactions
        · rw [if_pos hmem2] at hin
          exact Or.inl hin
        · rw [if_neg hmem2] at hin
          rcases List.mem_append.mp hin with hin' | hin'
          · exact Or.inl hin'
          · have htr : tr = t := by simpa using hin'
            subst htr
            have hg' := hg
            simp only [Bool.and_eq_true] at hg'
            refine Or.inr ⟨hg'.1, [], rest, rfl, ?_⟩
            exact hg'.2
      · refine Or.inr ⟨hcomp, t :: l₁, l₂, by rw [hsplit]; rfl, ?_⟩
        have : greedyLoop iUni iDis ongoing none cand (t :: l₁) =
            greedyLoop iUni iDis ongoing none (cand.add iUni t) l₁ := by
          simp [greedyLoop, hg]
        rw [this]
        exact hpre
    · have heq : greedyLoop iUni iDis ongoing none cand (t :: rest) =
          greedyLoop iUni iDis ongoing none cand rest := by
        simp only [Bool.and_eq_true] at hg
        simp [greedyLoop]
        intro h1 h2
        exact absurd ⟨h1, h2⟩ hg
      rw [heq] at hmem
      rcases ih cand tr hmem with hin | ⟨hcomp, l₁, l₂, hsplit, hpre⟩
      · exact Or.inl hin
      · refine Or.inr ⟨hcomp, t :: l₁, l₂, by rw [hsplit]; rfl, ?_⟩
        have : greedyLoop iUni iDis ongoing none cand (t :: l₁) =
            greedyLoop iUni iDis ongoing none cand l₁ := by
          simp only [Bool.and_eq_true] at hg
          simp [greedyLoop]
          intro h1 h2
          exact absurd ⟨h1, h2⟩ hg
        rw [this]
        exact hpre

/-- C5: with an unbounded execution queue (`max_count = None`) the
greedy scheduler returns exactly one batch which is maximal for the
single pass: every pending transaction left out is incompatible with
`ongoing` or with the returned batch, and every included transaction was
compatible with `ongoing` and with the batch accumulated before it. -/
theorem greedy_schedule_maximal (ongoing : TransactionSet (Finset Nat))
    (pending : List (Transaction (Finset Nat))) (opTime : Nat) :
    greedySchedule iUni iDis ∅ opTime ongoing pending none =
      [(greedyLoop iUni iDis ongoing none (TransactionSet.empty ∅) pending, opTime)] ∧
    (∀ tr ∈ pending,
      tr ∉ (greedyLoop iUni iDis ongoing none (TransactionSet.empty ∅) pending).transactions →
      ongoing.compatible iDis tr = false ∨
      TransactionSet.compatible iDis
        (greedyLoop iUni iDis ongoing none (TransactionSet.empty ∅) pending) tr = false) ∧
    (∀ tr ∈ (greedyLoop iUni iDis ongoing none (TransactionSet.empty ∅) pending).transactions,
      ongoing.compatible iDis tr = true ∧
      ∃ l₁ l₂, pending = l₁ ++ tr :: l₂ ∧
        TransactionSet.compatible iDis
          (greedyLoop iUni iDis ongoing none (TransactionSet.empty ∅) l₁) tr = true) := by
  refine ⟨rfl, greedyLoop_maximal ongoing pending _, ?_⟩
  intro tr hmem
  rcases greedyLoop_included ongoing pending (TransactionSet.empty ∅) tr hmem with hin | h
  · exact absurd hin (List.not_mem_nil _)
  · exact h

def c5ongoing : TransactionSet (Finset Nat) :=
  TransactionSet.ofList iUni ∅ [⟨0, {1}, {2}, 4⟩]

def c5t1 : Transaction (Finset Nat) := ⟨1, {3}, {4}, 5⟩

def c5t2 : Transaction (Finset Nat) := ⟨2, {5}, {4}, 6⟩

theorem greedy_schedule_maximal_witness :
    (c5ongoing.compatible iDis c5t2 = false ∨
      TransactionSet.compatible iDis
        (greedyLoop iUni iDis c5ongoing none (TransactionSet.empty ∅) [c5t1, c5t2])
        c5t2 = false) ∧
    (c5ongoing.compatible iDis c5t1 = true ∧
      ∃ l₁ l₂, [c5t1, c5t2] = l₁ ++ c5t1 :: l₂ ∧
        TransactionSet.compatible iDis
          (greedyLoop iUni iDis c5ongoing none (TransactionSet.empty ∅) l₁) c5t1 = true) :=
  ⟨(greedy_schedule_maximal c5ongoing [c5t1, c5t2] 3).2.1 c5t2 (by decide) (by decide),
   (greedy_schedule_maximal c5ongoing [c5t1, c5t2] 3).2.2 c5t1 (by decide)⟩

/-! ### The tournament scheduler (`schedulers.TournamentScheduler.schedule`) -/

/-- One merging round: Python pairs `sets[::2]` with `sets[1::2]`
(`zip_longest`), merges each pair in place when compatible (`t1 |= t2`),
otherwise keeps the first and discards the second, and then keeps only
the even-indexed (possibly merged) sets. -/
def mergeRound (uni : σ → σ → σ) (dis : σ → σ → Bool) :
    List (TransactionSet σ) → List (TransactionSet σ)
  | [] => []
  | [a] => [a]
  | a :: b :: rest =>
    (if a.compatibleTS dis b then a.ior uni b else a) :: mergeRound uni dis rest

theorem mergeRound_length (uni : σ → σ → σ) (dis : σ → σ → Bool) :
    ∀ l : List (TransactionSet σ), (mergeRound uni dis l).length = (l.length + 1) / 2
  | [] => by simp [mergeRound]
  | [a] => by simp [mergeRound]
  | a :: b :: rest => by
    simp only [mergeRound, List.length_cons, mergeRound_length uni dis rest]
    omega

/-- The `while len(sets) > 1` loop: repeat merging rounds until at most
one set remains, counting the rounds. -/
def tournLoop (uni : σ → σ → σ) (dis : σ → σ → Bool) (l : List (TransactionSet σ)) :
    List (TransactionSet σ) × Nat :=
  if h : l.length ≤ 1 then (l, 0)
  else
    let p := tournLoop uni dis (mergeRound uni dis l)
    (p.1, p.2 + 1)
termination_by l.length
decreasing_by
  simp only [mergeRound_length]
  omega

/-- The stage-1 candidate list: pending transactions compatible with
`ongoing`, each as a singleton `TransactionSet`, in iteration order. -/
def tournSets (uni : σ → σ → σ) (dis : σ → σ → Bool) (e0 : σ)
    (ongoing : TransactionSet σ) (pending : List (Transaction σ)) :
    List (TransactionSet σ) :=
  (pending.filter fun tr => ongoing.compatible dis tr).map
    fun tr => (TransactionSet.empty e0).add uni tr

/-- `TournamentScheduler.schedule`: merge pairwise until one group
remains; the elapsed time is `op_time` when pipelined and
`op_time * max(1, rounds)` otherwise. -/
def tournamentSchedule (uni : σ → σ → σ) (dis : σ → σ → Bool) (e0 : σ)
    (isPipelined : Bool) (opTime : Nat) (ongoing : TransactionSet σ)
    (pending : List (Transaction σ)) (maxCount : Option Nat) :
    List (TransactionSet σ × Nat) :=
  let res := tournLoop uni dis (tournSets uni dis e0 ongoing pending)
  let candidates :=
    match res.1, maxCount with
    | [], _ => TransactionSet.empty e0
    | s :: _, none => s
    | s :: _, some m => TransactionSet.ofList uni e0 (s.transactions.take m)
  [(candidates, if isPipelined then opTime else opTime * max 1 res.2)]

theorem tournLoop_rounds_aux (uni : σ → σ → σ) (dis : σ → σ → Bool) :
    ∀ n, ∀ l : List (TransactionSet σ), l.length ≤ n →
      (tournLoop uni dis l).2 = Nat.clog 2 l.length := by
  intro n
  induction n with
  | zero =>
    intro l hl
    have h0 : l.length = 0 := Nat.le_zero.mp hl
    rw [tournLoop, dif_pos (by omega), h0, Nat.clog_zero_right]
  | succ n ih =>
    intro l hl
    by_cases h1 : l.length ≤ 1
    · rw [tournLoop, dif_pos h1, Nat.clog_of_right_le_one h1]
    · rw [tournLoop, dif_neg h1]
      have hrec := ih (mergeRound uni dis l) (by rw [mergeRound_length]; omega)
      have hstep : Nat.clog 2 l.length = Nat.clog 2 ((l.length + 2 - 1) / 2) + 1 :=
        Nat.clog_of_two_le (by norm_num) (by omega)
      have heq2 : (l.length + 2 - 1) / 2 = (l.length + 1) / 2 := by omega
      simp only [hrec, mergeRound_length, hstep, heq2]

theorem tournLoop_rounds (uni : σ → σ → σ) (dis : σ → σ → Bool)
    (l : List (TransactionSet σ)) :
    (tournLoop uni dis l).2 = Nat.clog 2 l.length :=
  tournLoop_rounds_aux uni dis l.length l (Nat.le_refl _)

/-- C4: the tournament scheduler returns exactly one `(batch, elapsed)`
pair; starting from the `k` pending transactions compatible with
`ongoing` (as singleton sets in iteration order), the number of halving
rounds is `⌈log₂ k⌉` (`Nat.clog 2 k`), i.e. `0` for `k ≤ 1` and the
least `r` with `k ≤ 2 ^ r` for `k ≥ 2`; the elapsed time is `op_time`
when pipelined and `op_time * max(1, rounds)` otherwise. -/
theorem tournament_schedule_spec (uni : σ → σ → σ) (dis : σ → σ → Bool) (e0 : σ)
    (isPipelined : Bool) (opTime : Nat) (ongoing : TransactionSet σ)
    (pending : List (Transaction σ)) (maxCount : Option Nat) :
    (∃ cand, tournamentSchedule uni dis e0 isPipelined opTime ongoing pending maxCount =
      [(cand, if isPipelined then opTime
              else opTime * max 1 (tournLoop uni dis
                (tournSets uni dis e0 ongoing pending)).2)]) ∧
    (tournSets uni dis e0 ongoing pending).length =
      (pending.filter fun tr => ongoing.compatible dis tr).length ∧
    (tournLoop uni dis (tournSets uni dis e0 ongoing pending)).2 =
      Nat.clog 2 (tournSets uni dis e0 ongoing pending).length ∧
    ((tournSets uni dis e0 ongoing pending).length ≤ 1 →
      (tournLoop uni dis (tournSets uni dis e0 ongoing pending)).2 = 0) ∧
    (2 ≤ (tournSets uni dis e0 ongoing pending).length →
      (tournSets uni dis e0 ongoing pending).length ≤
          2 ^ (tournLoop uni dis (tournSets uni dis e0 ongoing pending)).2 ∧
        2 ^ ((tournLoop uni dis (tournSets uni dis e0 ongoing pending)).2 - 1) <
          (tournSets uni dis e0 ongoing pending).length) := by
  refine ⟨⟨_, rfl⟩, List.length_map _ _, tournLoop_rounds uni dis _, ?_, ?_⟩
  · intro h1
    rw [tournLoop_rounds, Nat.clog_of_right_le_one h1]
  · intro h2
    rw [tournLoop_rounds]
    exact ⟨Nat.le_pow_clog (by norm_num) _,
      Nat.pow_pred_clog_lt_self (by norm_num) (by omega)⟩

def c4pending : List (Transaction (Finset Nat)) :=
  [⟨5, {1}, {2}, 1⟩, ⟨6, {3}, {4}, 1⟩, ⟨7, {5}, {2}, 1⟩]

theorem tournament_schedule_spec_witness :
    (∃ cand, tournamentSchedule iUni iDis ∅ false 9
        (TransactionSet.empty ∅) c4pending none =
      [(cand, 9 * max 1 (tournLoop iUni iDis
        (tournSets iUni iDis ∅ (TransactionSet.empty ∅) c4pending)).2)]) ∧
    (2 ≤ (tournSets iUni iDis ∅ (TransactionSet.empty ∅) c4pending).length ∧
      (tournSets iUni iDis ∅ (TransactionSet.empty ∅) c4pending).length ≤
        2 ^ (tournLoop iUni iDis
          (tournSets iUni iDis ∅ (TransactionSet.empty ∅) c4pending)).2) := by
  obtain ⟨⟨cand, hc⟩, _, _, _, hpow⟩ := tournament_schedule_spec iUni iDis ∅ false 9
    (TransactionSet.empty ∅) c4pending none
  refine ⟨⟨cand, ?_⟩, by decide, (hpow (by decide)).1⟩
  simpa using hc

/-! ### The maximal scheduler (`schedulers.MaximalScheduler.schedule`) -/

/-- The recursive generator `all_candidate_sets` of
`MaximalScheduler.schedule`: at each pending transaction, first yield
every candidate set that skips it, then — when it is compatible with
`ongoing` and with the prefix built so far — every set that includes it.
Before the `add`, Python rebuilds the prefix member by member
(`TransactionSet(prefix, intset_maker=...)`). -/
def allCandidateSets (uni : σ → σ → σ) (dis : σ → σ → Bool) (e0 : σ)
    (ongoing : TransactionSet σ) :
    TransactionSet σ → List (Transaction σ) → List (TransactionSet σ)
  | pre, [] => [pre]
  | pre, tr :: rest =>
    allCandidateSets uni dis e0 ongoing pre rest ++
      (if ongoing.compatible dis tr && pre.compatible dis tr then
        allCandidateSets uni dis e0 ongoing
          ((TransactionSet.ofList uni e0 pre.transactions).add uni tr) rest
      else [])

/-- `heapq.nlargest(n, iterable, key=len)`: the `n` longest candidate
sets — a stable descending sort by length followed by `take n`
(equivalent to `sorted(iterable, key=len, reverse=True)[:n]`). -/
def nlargestByLen (n : Nat) (l : List (TransactionSet σ)) : List (TransactionSet σ) :=
  (l.mergeSort fun a b =>
    decide (b.transactions.length ≤ a.transactions.length)).take n

/-- `MaximalScheduler.schedule`: enumerate every subset of `pending`
jointly compatible with `ongoing`, keep the `n_schedules` largest, and
truncate each to `max_count` elements when the queue is bounded. -/
def maximalSchedule (uni : σ → σ → σ) (dis : σ → σ → Bool) (e0 : σ)
    (nSchedules opTime : Nat) (ongoing : TransactionSet σ)
    (pending : List (Transaction σ)) (maxCount : Option Nat) :
    List (TransactionSet σ × Nat) :=
  (nlargestByLen nSchedules
    (allCandidateSets uni dis e0 ongoing (TransactionSet.empty e0) pending)).map
    fun cand =>
      ((match maxCount with
        | none => cand
        | some m => TransactionSet.ofList uni e0 (cand.transactions.take m)), opTime)

/-! ### Approximate address sets (`sets.ApproximateAddressSet`) -/

/-- Bloom-filter-like integer set: a width-`size` bit vector with
`n_funcs` hash functions.  Inserting `obj` sets the bits
`(obj + i) % size` for `i ∈ [0, n_funcs)`.  The bit vector is modelled
as a `Nat`. -/
structure ApproximateAddressSet where
  bits : Nat
  size : Nat
  n_funcs : Nat
deriving DecidableEq

/-- The constructor `ApproximateAddressSet(objects, size=..., n_funcs=...)`:
start from 0 and set the hash bits of every object.  It is total: no
input can make it fail. -/
def ApproximateAddressSet.ofList (objects : List Nat) (size n_funcs : Nat) :
    ApproximateAddressSet :=
  ⟨objects.foldl (fun acc obj =>
      (List.range n_funcs).foldl (fun a i => a ||| (1 <<< ((obj + i) % size))) acc) 0,
    size, n_funcs⟩

/-- `__or__`: bitwise OR of the two bit vectors. -/
def ApproximateAddressSet.union (a b : ApproximateAddressSet) : ApproximateAddressSet :=
  ⟨a.bits ||| b.bits, a.size, a.n_funcs⟩

/-- `__and__`: bitwise AND of the two bit vectors. -/
def ApproximateAddressSet.inter (a b : ApproximateAddressSet) : ApproximateAddressSet :=
  ⟨a.bits &&& b.bits, a.size, a.n_funcs⟩

theorem testBit_foldl_or (f : Nat → Nat) (l : List Nat) (acc b : Nat) :
    Nat.testBit (l.foldl (fun a i => a ||| (1 <<< f i)) acc) b =
      (Nat.testBit acc b || l.any (fun i => f i == b)) := by
  induction l generalizing acc with
  | nil => simp
  | cons i rest ih =>
    simp only [List.foldl_cons, ih, List.any_cons]
    rw [Nat.testBit_lor]
    have h1 : (1 : Nat) <<< f i = 2 ^ f i := by
      rw [Nat.shiftLeft_eq, one_mul]
    rw [h1, Nat.testBit_two_pow]
    cases hd : f i == b with
    | true =>
      have heq : f i = b := by simpa using hd
      simp [heq]
    | false =>
      have hne : ¬f i = b := by simpa using hd
      simp [hne]

theorem testBit_approx_aux (W k b : Nat) :
    ∀ (objects : List Nat) (acc : Nat),
      Nat.testBit (objects.foldl (fun acc obj =>
        (List.range k).foldl (fun a i => a ||| (1 <<< ((obj + i) % W))) acc) acc) b =
      (Nat.testBit acc b ||
        objects.any fun x => (List.range k).any fun i => (x + i) % W == b) := by
  intro objects
  induction objects with
  | nil => simp
  | cons x rest ih =>
    intro acc
    simp only [List.foldl_cons, List.any_cons]
    rw [ih, testBit_foldl_or]
    cases Nat.testBit acc b <;>
      cases hx : (List.range k).any (fun i => (x + i) % W == b) <;> simp [hx]

theorem testBit_approx_ofList (objects : List Nat) (W k b : Nat) :
    Nat.testBit (ApproximateAddressSet.ofList objects W k).bits b =
      objects.any (fun x => (List.range k).any (fun i => (x + i) % W == b)) := by
  have h := testBit_approx_aux W k b objects 0
  simpa [ApproximateAddressSet.ofList] using h

/-- C3: bits of an approximate set built from `A` are exactly the
positions `(x + i) % W` for `x ∈ A`, `i < k` (construction is a total
function: it never fails); union and intersection are bitwise OR and
AND; a shared element forces a non-empty intersection (no false
negatives); and two disjoint collections can still intersect (false
positives), witnessed by `{0}` and `{W}`. -/
theorem approximate_set_spec (W k : Nat) (A B : List Nat) (hW : 0 < W) (hk : 0 < k) :
    (∀ b, Nat.testBit (ApproximateAddressSet.ofList A W k).bits b = true ↔
      ∃ x ∈ A, ∃ i < k, (x + i) % W = b) ∧
    ((ApproximateAddressSet.ofList A W k).union (ApproximateAddressSet.ofList B W k)).bits =
      (ApproximateAddressSet.ofList A W k).bits ||| (ApproximateAddressSet.ofList B W k).bits ∧
    ((ApproximateAddressSet.ofList A W k).inter (ApproximateAddressSet.ofList B W k)).bits =
      (ApproximateAddressSet.ofList A W k).bits &&& (ApproximateAddressSet.ofList B W k).bits ∧
    (∀ x, x ∈ A → x ∈ B →
      ((ApproximateAddressSet.ofList A W k).inter (ApproximateAddressSet.ofList B W k)).bits ≠ 0) ∧
    (∃ A2 B2 : List Nat, (∀ x ∈ A2, x ∉ B2) ∧
      ((ApproximateAddressSet.ofList A2 W k).inter
        (ApproximateAddressSet.ofList B2 W k)).bits ≠ 0) := by
  have hchar : ∀ (C : List Nat) (b : Nat),
      Nat.testBit (ApproximateAddressSet.ofList C W k).bits b = true ↔
      ∃ x ∈ C, ∃ i < k, (x + i) % W = b := by
    intro C b
    rw [testBit_approx_ofList]
    simp [List.any_eq_true, List.mem_range]
  have hshared : ∀ (C D : List Nat) (x : Nat), x ∈ C → x ∈ D →
      ((ApproximateAddressSet.ofList C W k).inter (ApproximateAddressSet.ofList D W k)).bits ≠ 0 := by
    intro C D x hxC hxD h0
    have hbit : Nat.testBit ((ApproximateAddressSet.ofList C W k).inter
        (ApproximateAddressSet.ofList D W k)).bits (x % W) = true := by
      show Nat.testBit ((ApproximateAddressSet.ofList C W k).bits &&&
        (ApproximateAddressSet.ofList D W k).bits) (x % W) = true
      rw [Nat.testBit_land, (hchar C (x % W)).mpr ⟨x, hxC, 0, hk, by simp⟩,
        (hchar D (x % W)).mpr ⟨x, hxD, 0, hk, by simp⟩]
      rfl
    rw [h0, Nat.zero_testBit] at hbit
    exact Bool.false_ne_true hbit
  refine ⟨hchar A, rfl, rfl, fun x => hshared A B x, ⟨[0], [W], ?_, ?_⟩⟩
  · intro x hx
    have hx0 : x = 0 := by simpa using hx
    subst hx0
    intro hW0
    have h0W : 0 = W := by simpa using hW0
    omega
  · intro h0
    have hbit : Nat.testBit ((ApproximateAddressSet.ofList [0] W k).inter
        (ApproximateAddressSet.ofList [W] W k)).bits (0 % W) = true := by
      show Nat.testBit ((ApproximateAddressSet.ofList [0] W k).bits &&&
        (ApproximateAddressSet.ofList [W] W k).bits) (0 % W) = true
      rw [Nat.testBit_land, (hchar [0] (0 % W)).mpr ⟨0, by simp, 0, hk, by simp⟩,
        (hchar [W] (0 % W)).mpr ⟨W, by simp, 0, hk, by simp [Nat.mod_self]⟩]
      rfl
    rw [h0, Nat.zero_testBit] at hbit
    exact Bool.false_ne_true hbit

theorem approximate_set_spec_witness :
    (Nat.testBit (ApproximateAddressSet.ofList [3] 8 2).bits 4 = true ↔
      ∃ x ∈ [3], ∃ i < 2, (x + i) % 8 = 4) ∧
    (∀ x, x ∈ [5, 13] → x ∈ [13] →
      ((ApproximateAddressSet.ofList [5, 13] 8 2).inter
        (ApproximateAddressSet.ofList [13] 8 2)).bits ≠ 0) :=
  ⟨(approximate_set_spec 8 2 [3] [13] (by decide) (by decide)).1 4,
   (approximate_set_spec 8 2 [5, 13] [13] (by decide) (by decide)).2.2.2.1⟩

/-! ### The renaming table (`sets.FiniteAddressSetMaker`)

The table is a list of `size` slots `(obj, refcount)`; Python's empty
marker `-1` is modelled as `none`.  The default hash family of
`FiniteAddressSetMakerFactory` is `h i x = (x + i) % size`. -/

/-- One renaming-table slot: the stored object (or `none` for the
Python sentinel `-1`) and its reference count. -/
abbrev RSlot := Option Nat × Nat

/-- Size and hash-function count of a `FiniteAddressSetMaker`. -/
structure RenCfg where
  size : Nat
  n_hash_funcs : Nat
deriving DecidableEq

/-- The default hash family `lambda i, x: (x + i) % size`. -/
def hashFn (cfg : RenCfg) (i x : Nat) : Nat := (x + i) % cfg.size

/-- The freshly initialised table `[(-1, 0)] * size`. -/
def allFree (size : Nat) : List RSlot := List.replicate size ((none : Option Nat), 0)

/-- The probe loop of `__getitem__`: the first `i < n_hash_funcs` whose
slot is empty or already holds `obj`. -/
def probeIns (cfg : RenCfg) (t : List RSlot) (x : Nat) : Option Nat :=
  (List.range cfg.n_hash_funcs).find? fun i =>
    let s := t.getD (hashFn cfg i x) ((none : Option Nat), 0)
    s.1 == none || s.1 == some x

/-- `FiniteAddressSetMaker.__getitem__`: insert `obj`, returning the new
table and the slot index, or `none` for the Python `KeyError` when every
probe slot holds a different object. -/
def tableInsert (cfg : RenCfg) (t : List RSlot) (x : Nat) :
    Option (List RSlot × Nat) :=
  match probeIns cfg t x with
  | none => none
  | some i =>
    let h := hashFn cfg i x
    let s := t.getD h ((none : Option Nat), 0)
    some (t.set h (if s.1 = none then (some x, 1) else (some x, s.2 + 1)), h)

/-- The probe loop of `__delitem__`: the first `i < n_hash_funcs` whose
slot holds `obj` with a positive count (Python matches `count == 1` or
`count > 1` and otherwise continues). -/
def probeDel (cfg : RenCfg) (t : List RSlot) (x : Nat) : Option Nat :=
  (List.range cfg.n_hash_funcs).find? fun i =>
    let s := t.getD (hashFn cfg i x) ((none : Option Nat), 0)
    s.1 == some x && decide (1 ≤ s.2)

/-- `FiniteAddressSetMaker.__delitem__`: release the slot when the count
reaches zero, else decrement; `none` models the Python `KeyError` when
no probe slot holds `obj`. -/
def tableDelete (cfg : RenCfg) (t : List RSlot) (x : Nat) : Option (List RSlot) :=
  match probeDel cfg t x with
  | none => none
  | some i =>
    let h := hashFn cfg i x
    let s := t.getD h ((none : Option Nat), 0)
    some (t.set h (if s.2 = 1 then ((none : Option Nat), 0) else (some x, s.2 - 1)))

/-- Total reference count held for object `x` across the table. -/
def countOf (t : List RSlot) (x : Nat) : Nat :=
  (t.map fun s => if s.1 = some x then s.2 else 0).sum

/-- A sequence of insertions (as performed by successive
`FiniteAddressSet` constructions), failing on the first `KeyError`. -/
def insertAll (cfg : RenCfg) : List RSlot → List Nat → Option (List RSlot)
  | t, [] => some t
  | t, x :: xs =>
    match tableInsert cfg t x with
    | none => none
    | some (t2, _) => insertAll cfg t2 xs

/-- A sequence of deletions (as performed by `free` calls). -/
def deleteAll (cfg : RenCfg) : List RSlot → List Nat → Option (List RSlot)
  | t, [] => some t
  | t, x :: xs =>
    match tableDelete cfg t x with
    | none => none
    | some t2 => deleteAll cfg t2 xs

/-- Invariant of every reachable renaming table: correct length, every
occupied slot has a positive count and sits at a probe position of its
object, and every free slot has count zero. -/
def TableInv (cfg : RenCfg) (t : List RSlot) : Prop :=
  t.length = cfg.size ∧
  ∀ p, p < t.length →
    (∀ x, (t.getD p ((none : Option Nat), 0)).1 = some x →
      1 ≤ (t.getD p ((none : Option Nat), 0)).2 ∧
      ∃ i < cfg.n_hash_funcs, hashFn cfg i x = p) ∧
    ((t.getD p ((none : Option Nat), 0)).1 = none →
      (t.getD p ((none : Option Nat), 0)).2 = 0)

theorem getD_set_self {α} (l : List α) (p : Nat) (a d : α) (h : p < l.length) :
    (l.set p a).getD p d = a := by
  induction l generalizing p with
  | nil => simp at h
  | cons y ys ih =>
    cases p with
    | zero => rfl
    | succ q => exact ih q (by simpa using h)

theorem getD_set_other {α} (l : List α) (p q : Nat) (a d : α) (h : p ≠ q) :
    (l.set p a).getD q d = l.getD q d := by
  induction l generalizing p q with
  | nil => simp [List.set]
  | cons y ys ih =>
    cases p with
    | zero =>
      cases q with
      | zero => exact absurd rfl h
      | succ q2 => rfl
    | succ p2 =>
      cases q with
      | zero => rfl
      | succ q2 => exact ih p2 q2 (by omega)

theorem sum_map_set {α} (f : α → Nat) (d : α) :
    ∀ (l : List α) (p : Nat) (a : α), p < l.length →
      ((l.set p a).map f).sum + f (l.getD p d) = (l.map f).sum + f a := by
  intro l
  induction l with
  | nil => intro p a h; simp at h
  | cons y ys ih =>
    intro p a h
    cases p with
    | zero => simp [List.set]; omega
    | succ q =>
      have hq : q < ys.length := by simpa using h
      have := ih q a hq
      simp only [List.set, List.map_cons, List.sum_cons, List.getD_cons_succ]
      omega

theorem countOf_allFree (size x : Nat) : countOf (allFree size) x = 0 := by
  unfold countOf allFree
  induction size with
  | zero => rfl
  | succ n ih =>
    simp only [List.replicate_succ, List.map_cons, List.sum_cons, ih]
    simp

theorem getD_allFree (size p : Nat) :
    (allFree size).getD p ((none : Option Nat), 0) = ((none : Option Nat), 0) := by
  unfold allFree
  induction size generalizing p with
  | zero => simp
  | succ n ih =>
    cases p with
    | zero => simp [List.replicate_succ]
    | succ q => simp only [List.replicate_succ, List.getD_cons_succ]; exact ih q

theorem tableInv_allFree (cfg : RenCfg) : TableInv cfg (allFree cfg.size) := by
  refine ⟨by simp [allFree], fun p hp => ⟨fun x hc => ?_, fun _ => ?_⟩⟩
  · rw [getD_allFree] at hc
    exact absurd hc (by simp)
  · rw [getD_allFree]

/-- Decomposition of a successful insertion: the chosen slot is a probe
position of the object and was either free (becoming `(obj, 1)`) or held
the object (its count incremented). -/
theorem tableInsert_spec (cfg : RenCfg) {t t2 : List RSlot} {x p : Nat}
    (h : tableInsert cfg t x = some (t2, p)) :
    ∃ i, i < cfg.n_hash_funcs ∧ p = hashFn cfg i x ∧
      (((t.getD p ((none : Option Nat), 0)).1 = none ∧ t2 = t.set p (some x, 1)) ∨
       ((t.getD p ((none : Option Nat), 0)).1 = some x ∧
         t2 = t.set p (some x, (t.getD p ((none : Option Nat), 0)).2 + 1))) := by
  unfold tableInsert at h
  cases hp : probeIns cfg t x with
  | none => rw [hp] at h; exact absurd h (by simp)
  | some i =>
    rw [hp] at h
    simp only [Option.some.injEq, Prod.mk.injEq] at h
    obtain ⟨ht2, hpp⟩ := h
    have hik : i < cfg.n_hash_funcs :=
      List.mem_range.mp (List.mem_of_find?_eq_some hp)
    have hcond := List.find?_some hp
    simp only [Bool.or_eq_true, beq_iff_eq] at hcond
    subst hpp
    rcases hcond with hc | hc
    · refine ⟨i, hik, rfl, Or.inl ⟨hc, ?_⟩⟩
      rw [← ht2, if_pos hc]
    · refine ⟨i, hik, rfl, Or.inr ⟨hc, ?_⟩⟩
      rw [← ht2, if_neg (by rw [hc]; simp)]

/-- Decomposition of a successful deletion: the chosen slot is a probe
position holding the object with positive count; it is released when the
count was 1 and decremented otherwise. -/
theorem tableDelete_spec (cfg : RenCfg) {t t2 : List RSlot} {x : Nat}
    (h : tableDelete cfg t x = some t2) :
    ∃ p i, i < cfg.n_hash_funcs ∧ p = hashFn cfg i x ∧
      (t.getD p ((none : Option Nat), 0)).1 = some x ∧
      1 ≤ (t.getD p ((none : Option Nat), 0)).2 ∧
      t2 = t.set p
        (if (t.getD p ((none : Option Nat), 0)).2 = 1 then ((none : Option Nat), 0)
         else (some x, (t.getD p ((none : Option Nat), 0)).2 - 1)) := by
  unfold tableDelete at h
  cases hp : probeDel cfg t x with
  | none => rw [hp] at h; exact absurd h (by simp)
  | some i =>
    rw [hp] at h
    simp only [Option.some.injEq] at h
    have hik : i < cfg.n_hash_funcs :=
      List.mem_range.mp (List.mem_of_find?_eq_some hp)
    have hcond := List.find?_some hp
    simp only [Bool.and_eq_true, beq_iff_eq, decide_eq_true_eq] at hcond
    exact ⟨hashFn cfg i x, i, hik, rfl, hcond.1, hcond.2, h.symm⟩

/-- The effect of a single slot update on a per-object total count. -/
theorem countOf_set_eq (t : List RSlot) (p : Nat) (s2 : RSlot) (y : Nat)
    (hp : p < t.length) :
    countOf (t.set p s2) y +
      (if (t.getD p ((none : Option Nat), 0)).1 = some y
        then (t.getD p ((none : Option Nat), 0)).2 else 0) =
    countOf t y + (if s2.1 = some y then s2.2 else 0) :=
  sum_map_set (fun s : RSlot => if s.1 = some y then s.2 else 0)
    ((none : Option Nat), 0) t p s2 hp

theorem tableInsert_countOf (cfg : RenCfg) {t t2 : List RSlot} {x p : Nat}
    (hW : 0 < cfg.size) (hlen : t.length = cfg.size)
    (h : tableInsert cfg t x = some (t2, p)) :
    countOf t2 x = countOf t x + 1 ∧ ∀ y, y ≠ x → countOf t2 y = countOf t y := by
  obtain ⟨i, hik, rfl, hcase⟩ := tableInsert_spec cfg h
  have hp : hashFn cfg i x < t.length := by
    rw [hlen]; exact Nat.mod_lt _ hW
  rcases hcase with ⟨hnone, ht2⟩ | ⟨hsome, ht2⟩
  · constructor
    · have hc := countOf_set_eq t (hashFn cfg i x) (some x, 1) x hp
      rw [if_neg (by rw [hnone]; simp), if_pos rfl] at hc
      rw [ht2]
      omega
    · intro y hyx
      have hxy : ¬((some x : Option Nat) = some y) := by
        intro hq
        exact hyx (Option.some.inj hq).symm
      have hc := countOf_set_eq t (hashFn cfg i x) (some x, 1) y hp
      rw [if_neg (by rw [hnone]; simp), if_neg hxy] at hc
      rw [ht2]
      omega
  · constructor
    · have hc := countOf_set_eq t (hashFn cfg i x)
        (some x, (t.getD (hashFn cfg i x) ((none : Option Nat), 0)).2 + 1) x hp
      rw [if_pos hsome, if_pos rfl] at hc
      rw [ht2]
      omega
    · intro y hyx
      have hxy : ¬((some x : Option Nat) = some y) := by
        intro hq
        exact hyx (Option.some.inj hq).symm
      have hc := countOf_set_eq t (hashFn cfg i x)
        (some x, (t.getD (hashFn cfg i x) ((none : Option Nat), 0)).2 + 1) y hp
      rw [if_neg (hsome ▸ hxy), if_neg hxy] at hc
      rw [ht2]
      omega

theorem tableDelete_countOf (cfg : RenCfg) {t t2 : List RSlot} {x : Nat}
    (hW : 0 < cfg.size) (hlen : t.length = cfg.size)
    (h : tableDelete cfg t x = some t2) :
    countOf t2 x + 1 = countOf t x ∧ ∀ y, y ≠ x → countOf t2 y = countOf t y := by
  obtain ⟨p, i, hik, rfl, hobj, hcnt, ht2⟩ := tableDelete_spec cfg h
  have hp : hashFn cfg i x < t.length := by
    rw [hlen]; exact Nat.mod_lt _ hW
  by_cases hone : (t.getD (hashFn cfg i x) ((none : Option Nat), 0)).2 = 1
  · rw [if_pos hone] at ht2
    constructor
    · have hc := countOf_set_eq t (hashFn cfg i x) ((none : Option Nat), 0) x hp
      rw [if_pos hobj, if_neg (by simp)] at hc
      rw [ht2]
      omega
    · intro y hyx
      have hxy : ¬((some x : Option Nat) = some y) := by
        intro hq
        exact hyx (Option.some.inj hq).symm
      have hc := countOf_set_eq t (hashFn cfg i x) ((none : Option Nat), 0) y hp
      rw [if_neg (hobj ▸ hxy), if_neg (by simp)] at hc
      rw [ht2]
      omega
  · rw [if_neg hone] at ht2
    constructor
    · have hc := countOf_set_eq t (hashFn cfg i x)
        (some x, (t.getD (hashFn cfg i x) ((none : Option Nat), 0)).2 - 1) x hp
      rw [if_pos hobj, if_pos rfl] at hc
      rw [ht2]
      omega
    · intro y hyx
      have hxy : ¬((some x : Option Nat) = some y) := by
        intro hq
        exact hyx (Option.some.inj hq).symm
      have hc := countOf_set_eq t (hashFn cfg i x)
        (some x, (t.getD (hashFn cfg i x) ((none : Option Nat), 0)).2 - 1) y hp
      rw [if_neg (hobj ▸ hxy), if_neg hxy] at hc
      rw [ht2]
      omega

theorem tableInsert_inv (cfg : RenCfg) {t t2 : List RSlot} {x p : Nat}
    (hW : 0 < cfg.size) (hinv : TableInv cfg t)
    (h : tableInsert cfg t x = some (t2, p)) : TableInv cfg t2 := by
  obtain ⟨i, hik, rfl, hcase⟩ := tableInsert_spec cfg h
  have hp : hashFn cfg i x < t.length := by
    rw [hinv.1]; exact Nat.mod_lt _ hW
  have hset : ∀ s2 : RSlot, s2.1 = some x → 1 ≤ s2.2 →
      TableInv cfg (t.set (hashFn cfg i x) s2) := by
    intro s2 hs1 hs2
    refine ⟨by rw [List.length_set]; exact hinv.1, fun q hq => ?_⟩
    rw [List.length_set] at hq
    by_cases hqp : hashFn cfg i x = q
    · subst hqp
      rw [getD_set_self _ _ _ _ hp]
      refine ⟨fun y hy => ⟨hs2, ?_⟩, fun hn => ?_⟩
      · have hxy : x = y := by
          rw [hs1] at hy; exact Option.some.injEq _ _ ▸ hy
        exact hxy ▸ ⟨i, hik, rfl⟩
      · rw [hs1] at hn; exact absurd hn (by simp)
    · rw [getD_set_other _ _ _ _ _ hqp]
      exact (hinv.2 q hq)
  rcases hcase with ⟨_, ht2⟩ | ⟨_, ht2⟩
  · exact ht2 ▸ hset (some x, 1) rfl (by omega)
  · exact ht2 ▸ hset (some x, (t.getD (hashFn cfg i x) ((none : Option Nat), 0)).2 + 1)
      rfl (by omega)

theorem tableDelete_inv (cfg : RenCfg) {t t2 : List RSlot} {x : Nat}
    (hW : 0 < cfg.size) (hinv : TableInv cfg t)
    (h : tableDelete cfg t x = some t2) : TableInv cfg t2 := by
  obtain ⟨p, i, hik, rfl, hobj, hcnt, ht2⟩ := tableDelete_spec cfg h
  have hp : hashFn cfg i x < t.length := by
    rw [hinv.1]; exact Nat.mod_lt _ hW
  subst ht2
  refine ⟨by rw [List.length_set]; exact hinv.1, fun q hq => ?_⟩
  rw [List.length_set] at hq
  by_cases hqp : hashFn cfg i x = q
  · subst hqp
    rw [getD_set_self _ _ _ _ hp]
    by_cases hone : (t.getD (hashFn cfg i x) ((none : Option Nat), 0)).2 = 1
    · rw [if_pos hone]
      exact ⟨fun y hy => absurd hy (by simp), fun _ => rfl⟩
    · rw [if_neg hone]
      refine ⟨fun y hy => ?_, fun hn => absurd hn (by simp)⟩
      have hxy : x = y := Option.some.injEq _ _ ▸ hy
      subst hxy
      exact ⟨by omega, i, hik, rfl⟩
  · rw [getD_set_other _ _ _ _ _ hqp]
    exact hinv.2 q hq

theorem countOf_pos_exists (t : List RSlot) (x : Nat) (hc : 0 < countOf t x) :
    ∃ p, p < t.length ∧ (t.getD p ((none : Option Nat), 0)).1 = some x ∧
      0 < (t.getD p ((none : Option Nat), 0)).2 := by
  unfold countOf at hc
  induction t with
  | nil => simp at hc
  | cons s rest ih =>
    simp only [List.map_cons, List.sum_cons] at hc
    by_cases hs : (if s.1 = some x then s.2 else 0) > 0
    · refine ⟨0, by simp, ?_⟩
      by_cases h1 : s.1 = some x
      · simpa [h1] using hs
      · simp [h1] at hs
    · have hrest : 0 < (rest.map fun s => if s.1 = some x then s.2 else 0).sum := by omega
      obtain ⟨p, hp, hobj, hpos⟩ := ih hrest
      exact ⟨p + 1, by simpa using hp, hobj, hpos⟩

theorem tableDelete_isSome (cfg : RenCfg) {t : List RSlot} {x : Nat}
    (hinv : TableInv cfg t) (hc : 0 < countOf t x) :
    (tableDelete cfg t x).isSome := by
  obtain ⟨p, hp, hobj, hpos⟩ := countOf_pos_exists t x hc
  obtain ⟨hge1, i, hik, hhash⟩ := (hinv.2 p hp).1 x hobj
  unfold tableDelete
  cases hfind : probeDel cfg t x with
  | some j => simp
  | none =>
    have hall := List.find?_eq_none.mp hfind i (List.mem_range.mpr hik)
    exfalso
    apply hall
    simp only [Bool.and_eq_true, beq_iff_eq, decide_eq_true_eq, hhash]
    exact ⟨hobj, hge1⟩

theorem insertAll_inv_count (cfg : RenCfg) (hW : 0 < cfg.size) :
    ∀ (ins : List Nat) (t t2 : List RSlot), TableInv cfg t →
      insertAll cfg t ins = some t2 →
      TableInv cfg t2 ∧ ∀ y, countOf t2 y = countOf t y + ins.count y := by
  intro ins
  induction ins with
  | nil =>
    intro t t2 hinv h
    simp only [insertAll, Option.some.injEq] at h
    subst h
    exact ⟨hinv, by simp⟩
  | cons x xs ih =>
    intro t t2 hinv h
    simp only [insertAll] at h
    cases hins : tableInsert cfg t x with
    | none => rw [hins] at h; exact absurd h (by simp)
    | some pr =>
      obtain ⟨t1, p⟩ := pr
      rw [hins] at h
      have hinv1 := tableInsert_inv cfg hW hinv hins
      obtain ⟨hcx, hcy⟩ := tableInsert_countOf cfg hW hinv.1 hins
      obtain ⟨hinv2, hcount⟩ := ih t1 t2 hinv1 h
      refine ⟨hinv2, fun y => ?_⟩
      by_cases hyx : y = x
      · subst hyx
        rw [hcount y, hcx, List.count_cons]
        simp
        omega
      · rw [hcount y, hcy y hyx, List.count_cons]
        simp [Ne.symm hyx, hyx]

theorem deleteAll_allFree (cfg : RenCfg) (hW : 0 < cfg.size) :
    ∀ (dels : List Nat) (t : List RSlot), TableInv cfg t →
      (∀ y, countOf t y = dels.count y) →
      deleteAll cfg t dels = some (allFree cfg.size) := by
  intro dels
  induction dels with
  | nil =>
    intro t hinv hcnt
    have ht : t = allFree cfg.size := by
      have hall : ∀ b ∈ t, b = ((none : Option Nat), 0) := by
        intro b hb
        obtain ⟨q, hq, hbq⟩ := List.mem_iff_getElem.mp hb
        have hgd : t.getD q ((none : Option Nat), 0) = b := by
          rw [List.getD_eq_getElem?_getD, List.getElem?_eq_getElem hq]
          simp [hbq]
        cases hobj : b.1 with
        | none =>
          have hz : b.2 = 0 := by
            rw [← hgd]
            exact (hinv.2 q hq).2 (by rw [hgd, hobj])
          obtain ⟨o, c⟩ := b
          simp only at hobj hz
          rw [hobj, hz]
        | some y =>
          obtain ⟨hge1, _⟩ := (hinv.2 q hq).1 y (by rw [hgd, hobj])
          rw [hgd] at hge1
          have hmem : b.2 ≤ countOf t y := by
            unfold countOf
            refine List.single_le_sum (fun v _ => Nat.zero_le v) _ ?_
            have hify : (if b.1 = some y then b.2 else 0) = b.2 := by simp [hobj]
            rw [← hify]
            exact List.mem_map_of_mem _ hb
          rw [hcnt y] at hmem
          simp at hmem
          exact absurd hmem (by omega)
      have hrep := List.eq_replicate_length.mpr hall
      rw [hinv.1] at hrep
      exact hrep
    rw [ht]
    rfl
  | cons d ds ih =>
    intro t hinv hcnt
    have hpos : 0 < countOf t d := by
      rw [hcnt d, List.count_cons]
      simp
    have hsome := tableDelete_isSome cfg hinv hpos
    cases hdel : tableDelete cfg t d with
    | none => rw [hdel] at hsome; simp at hsome
    | some t1 =>
      simp only [deleteAll, hdel]
      have hinv1 := tableDelete_inv cfg hW hinv hdel
      obtain ⟨hcx, hcy⟩ := tableDelete_countOf cfg hW hinv.1 hdel
      apply ih t1 hinv1
      intro y
      by_cases hyd : y = d
      · subst hyd
        have := hcnt y
        rw [List.count_cons] at this
        simp at this
        omega
      · rw [hcy y hyd, hcnt y, List.count_cons]
        simp [Ne.symm hyd, hyd]

/-- C6: starting from the fresh all-free table, any sequence of
successful insertions followed by deletions balanced per address (a
permutation of the insertions) succeeds and returns the table to the
all-free state; moreover each insertion increments the total refcount
held for its address by one, and each deletion decrements it by one,
leaving all other addresses untouched. -/
theorem renaming_round_trip (cfg : RenCfg) (ins dels : List Nat) (t1 : List RSlot)
    (hW : 0 < cfg.size)
    (hins : insertAll cfg (allFree cfg.size) ins = some t1)
    (hperm : dels.Perm ins) :
    deleteAll cfg t1 dels = some (allFree cfg.size) ∧
    (∀ (t t2 : List RSlot) (x p : Nat), t.length = cfg.size →
      tableInsert cfg t x = some (t2, p) →
      countOf t2 x = countOf t x + 1 ∧ ∀ y, y ≠ x → countOf t2 y = countOf t y) ∧
    (∀ (t t2 : List RSlot) (x : Nat), t.length = cfg.size →
      tableDelete cfg t x = some t2 →
      countOf t2 x + 1 = countOf t x ∧ ∀ y, y ≠ x → countOf t2 y = countOf t y) := by
  obtain ⟨hinv1, hcount⟩ := insertAll_inv_count cfg hW ins (allFree cfg.size) t1
    (tableInv_allFree cfg) hins
  refine ⟨?_, fun t t2 x p hlen h => tableInsert_countOf cfg hW hlen h,
    fun t t2 x hlen h => tableDelete_countOf cfg hW hlen h⟩
  apply deleteAll_allFree cfg hW dels t1 hinv1
  intro y
  rw [hcount y, countOf_allFree, hperm.count_eq y]
  omega

def c6cfg : RenCfg := ⟨2, 2⟩

def c6t1 : List RSlot := [(some 0, 2), (some 1, 1)]

theorem renaming_round_trip_witness :
    deleteAll c6cfg c6t1 [1, 0, 0] = some (allFree 2) ∧
    countOf [((none : Option Nat), 0), (some 7, 2)] 7 =
      countOf [((none : Option Nat), 0), (some 7, 1)] 7 + 1 :=
  ⟨(renaming_round_trip c6cfg [0, 0, 1] [1, 0, 0] c6t1 (by decide) (by decide)
      (by decide)).1,
   ((renaming_round_trip c6cfg [0, 0, 1] [1, 0, 0] c6t1 (by decide) (by decide)
      (by decide)).2.1 [((none : Option Nat), 0), (some 7, 1)]
      [((none : Option Nat), 0), (some 7, 2)] 7 1 (by decide) (by decide)).1⟩

/-! ### Renaming-backed address sets and the transaction source
(`sets.FiniteAddressSet`, `pmtypes.TransactionGenerator`) -/

/-- `FiniteAddressSet`: a width-`size` bit vector plus the `objs` array
mapping slot indices back to the stored objects (Python's `-1` sentinel
is `none`). -/
structure FiniteAddressSet where
  bits : Nat
  objs : List (Option Nat)
  size : Nat
deriving DecidableEq

/-- The rollback loop of `FiniteAddressSet.__init__`:
`for iobj in inserted: del renaming_table[iobj]`.  Python iterates the
`inserted` set in unspecified order; we keep `inserted` as a list with
the most recent insertion first and delete in that order.  A `KeyError`
is impossible for objects just inserted and is modelled as a no-op. -/
def rollbackInserted (cfg : RenCfg) (t : List RSlot) (inserted : List Nat) :
    List RSlot :=
  inserted.foldl (fun acc obj => (tableDelete cfg acc obj).getD acc) t

/-- The insertion loop of `FiniteAddressSet.__init__`: skip duplicates,
insert each object through the renaming table (`renaming_table[obj]`),
record its slot in `bits`/`objs`; on a `KeyError` delete the already
inserted objects and fail (`ValueError`), returning the rolled-back
table with the error. -/
def buildFin (cfg : RenCfg) (t : List RSlot) (fs : FiniteAddressSet)
    (inserted : List Nat) :
    List Nat → Except (List RSlot) (FiniteAddressSet × List RSlot)
  | [] => .ok (fs, t)
  | obj :: rest =>
    if obj ∈ inserted then buildFin cfg t fs inserted rest
    else
      match tableInsert cfg t obj with
      | none => .error (rollbackInserted cfg t inserted)
      | some (t2, index) =>
        buildFin cfg t2
          { fs with bits := fs.bits ||| (1 <<< index), objs := fs.objs.set index (some obj) }
          (obj :: inserted) rest

/-- `FiniteAddressSetMaker.__call__`: build a fresh set (empty bits,
`[-1] * size` object array) from the given objects. -/
def makeFiniteSet (cfg : RenCfg) (t : List RSlot) (objects : List Nat) :
    Except (List RSlot) (FiniteAddressSet × List RSlot) :=
  buildFin cfg t ⟨0, List.replicate cfg.size none, cfg.size⟩ [] objects

/-- Iterating a `FiniteAddressSet` (`__iter__` yields the non-`-1`
entries of `objs` in slot order) and deleting each from the table, as
`FiniteAddressSetMaker.free` does per set. -/
def freeSet (cfg : RenCfg) (t : List RSlot) (fs : FiniteAddressSet) : List RSlot :=
  fs.objs.foldl
    (fun acc o =>
      match o with
      | none => acc
      | some obj => (tableDelete cfg acc obj).getD acc) t

/-- `FiniteAddressSetMaker.free(transaction)`: delete every address in
`chain(transaction.read_set, transaction.write_set)`. -/
def makerFree (cfg : RenCfg) (t : List RSlot) (tr : Transaction FiniteAddressSet) :
    List RSlot :=
  freeSet cfg (freeSet cfg t tr.read_set) tr.write_set

/-- One transaction template: the `"reads"`, `"writes"` and `"time"`
entries of `tr_data`. -/
structure TrConf where
  reads : Nat
  writes : Nat
  time : Nat
deriving DecidableEq, Inhabited

/-- State of `pmtypes.TransactionGenerator` plus the process-wide
`UniqIdMaker` counter (`uniq`) used for transaction ids.  Entries of
`overflowed`/`deferred` are `(transaction index, address base)` pairs;
the index is an `Int` because Python computes `self.tr_index - 1`, which
can be negative. -/
structure GenState where
  tr_data : List TrConf
  addresses : List Nat
  tr_index : Nat
  address_index : Nat
  overflowed : List (Int × Nat)
  deferred : List (Int × Nat)
  uniq : Nat
deriving DecidableEq

/-- Python slice `l[a:b]` (clamping, no negative bounds needed here). -/
def pySlice (l : List Nat) (a b : Nat) : List Nat := (l.drop a).take (b - a)

/-- Python indexing `l[i]` with possibly negative `i` (wrapping from the
end); an out-of-range access would raise `IndexError` and is modelled by
the default configuration. -/
def pyIdx (l : List TrConf) (i : Int) : TrConf :=
  if 0 ≤ i then l.getD i.toNat default
  else l.getD (l.length - (-i).toNat) default

/-- Result of `TransactionGenerator.send`: a transaction, `None` (the
transaction overflowed and was deferred), or `StopIteration`. -/
inductive SendRes where
  | stop
  | failed
  | tr (t : Transaction FiniteAddressSet)
deriving DecidableEq

/-- The `try` block of `send`: acquire the read set, then the write set;
when the write set overflows, free the already-inserted read addresses
(`intset_maker.free(Transaction(read_set, set(), 0))`); on either
failure append `(self.tr_index - 1, read_start)` to `overflowed` and
return `None`. -/
def sendAttempt (cfg : RenCfg) (g : GenState) (t : List RSlot) (conf : TrConf)
    (read_start read_end write_start write_end : Nat) :
    GenState × List RSlot × SendRes :=
  match makeFiniteSet cfg t (pySlice g.addresses read_start read_end) with
  | .error t2 =>
    ({ g with overflowed := g.overflowed ++ [((g.tr_index : Int) - 1, read_start)] },
      t2, .failed)
  | .ok (rs, t1) =>
    match makeFiniteSet cfg t1 (pySlice g.addresses write_start write_end) with
    | .error t3 =>
      ({ g with overflowed := g.overflowed ++ [((g.tr_index : Int) - 1, read_start)] },
        freeSet cfg t3 rs, .failed)
    | .ok (ws, t2) =>
      ({ g with uniq := g.uniq + 1 }, t2, .tr ⟨g.uniq, rs, ws, conf.time⟩)

/-- `TransactionGenerator.send`: retry the first deferred entry if any,
else materialise the next template (advancing `tr_index` and
`address_index`), else raise `StopIteration`. -/
def send (cfg : RenCfg) (g : GenState) (t : List RSlot) :
    GenState × List RSlot × SendRes :=
  match g.deferred with
  | (tr_base, address_base) :: rest =>
    let conf := pyIdx g.tr_data tr_base
    sendAttempt cfg { g with deferred := rest } t conf
      address_base (address_base + conf.reads)
      (address_base + conf.reads) (address_base + conf.reads + conf.writes)
  | [] =>
    if g.tr_index = g.tr_data.length then (g, t, .stop)
    else
      let conf := g.tr_data.getD g.tr_index default
      sendAttempt cfg
        { g with tr_index := g.tr_index + 1,
                 address_index := g.address_index + conf.reads + conf.writes } t conf
        g.address_index (g.address_index + conf.reads)
        (g.address_index + conf.reads)
        (g.address_index + conf.reads + conf.writes)

/-- `TransactionGenerator.reset_overflows`. -/
def reset_overflows (g : GenState) : GenState :=
  { g with deferred := g.deferred ++ g.overflowed, overflowed := [] }

/-- `TransactionGenerator.__bool__`: true while templates, overflowed or
deferred entries remain. -/
def genBool (g : GenState) : Bool :=
  decide (g.tr_index ≠ g.tr_data.length) || !g.overflowed.isEmpty || !g.deferred.isEmpty

def c7cfg : RenCfg := ⟨1, 1⟩

def c7g0 : GenState :=
  ⟨[⟨1, 0, 1⟩, ⟨0, 1, 1⟩, ⟨0, 0, 1⟩], [5, 7], 0, 0, [], [], 0⟩

def c7step1 : GenState × List RSlot × SendRes := send c7cfg c7g0 (allFree 1)

def c7step2 : GenState × List RSlot × SendRes := send c7cfg c7step1.1 c7step1.2.1

def c7step3 : GenState × List RSlot × SendRes := send c7cfg c7step2.1 c7step2.2.1

def c7g4 : GenState := reset_overflows c7step3.1

def c7step4 : GenState × List RSlot × SendRes := send c7cfg c7g4 c7step3.2.1

def c7bg : GenState := ⟨[⟨1, 1, 1⟩], [0, 1], 0, 0, [], [], 0⟩

def c7bt : List RSlot := [((none : Option Nat), 0), (some 9, 1)]

/-- C7, evaluated on concrete runs.  First run (templates
`[1r/0w, 0r/1w, 0r/0w]`, addresses `[5, 7]`, one-slot table): the second
template's write set overflows and is recorded as `(1, 1)`; after
`reset_overflows` the deferred retry `(1, 1)` fails again, but the code
records `(tr_index - 1, read_start) = (2, 1)` — the index of the third,
already delivered, template — instead of re-recording the deferred
transaction 1.  Second run: a fresh read set is acquired, the write set
then overflows, and `free` returns the renaming table exactly to its
pre-call state while `send` returns `None` and defers the (fresh)
transaction correctly. -/
theorem send_deferred_misrecords :
    c7g4.deferred = [((1 : Int), 1)] ∧
    c7step4.2.2 = SendRes.failed ∧
    c7step4.1.overflowed = [((2 : Int), 1)] ∧
    c7step4.1.deferred = [] ∧
    (send ⟨2, 1⟩ c7bg c7bt).2.2 = SendRes.failed ∧
    (send ⟨2, 1⟩ c7bg c7bt).2.1 = c7bt ∧
    (send ⟨2, 1⟩ c7bg c7bt).1.overflowed = [((0 : Int), 0)] := by
  refine ⟨?_, ?_, ?_, ?_, ?_, ?_, ?_⟩ <;> decide

/-! ### `AbstractScheduler.run` over the renaming-backed machine state
(`schedulers.AbstractScheduler.run`, `pmtypes.MachineState`) -/

/-- `FiniteAddressSet.__or__`: bit-vector OR; the result is a fresh set
with a reset (`[-1] * size`) object array. -/
def finU (a b : FiniteAddressSet) : FiniteAddressSet :=
  ⟨a.bits ||| b.bits, List.replicate a.size none, a.size⟩

/-- `not (a & b)` for finite sets: the AND of the bit vectors is zero. -/
def finDis (a b : FiniteAddressSet) : Bool := (a.bits &&& b.bits) == 0

/-- An empty finite set of the given width. -/
def finEmpty (size : Nat) : FiniteAddressSet := ⟨0, List.replicate size none, size⟩

/-- `pmtypes.Core`: completion clock and the executing transaction. -/
structure FCore where
  clock : Nat
  transaction : Transaction FiniteAddressSet
deriving DecidableEq

/-- `pmtypes.MachineState` for a renaming-table run: the transaction
source, the maker's table, the four collections and the clock.  `cores`
is kept as Python's binary heap list; its head is the earliest
completion. -/
structure MState where
  incoming : GenState
  table : List RSlot
  pending : List (Transaction FiniteAddressSet)
  scheduled : List (Transaction FiniteAddressSet)
  core_count : Nat
  cores : List FCore
  clock : Nat
deriving DecidableEq

/-- Templates and deferred entries still to be drawn; each non-`stop`
`send` strictly decreases it. -/
def genMeasure (g : GenState) : Nat :=
  (g.tr_data.length - g.tr_index) + g.deferred.length

theorem sendAttempt_keeps (cfg : RenCfg) (g : GenState) (t : List RSlot)
    (conf : TrConf) (a b c d : Nat) :
    (sendAttempt cfg g t conf a b c d).1.tr_data = g.tr_data ∧
    (sendAttempt cfg g t conf a b c d).1.tr_index = g.tr_index ∧
    (sendAttempt cfg g t conf a b c d).1.deferred = g.deferred := by
  unfold sendAttempt
  split
  · exact ⟨rfl, rfl, rfl⟩
  · split
    · exact ⟨rfl, rfl, rfl⟩
    · exact ⟨rfl, rfl, rfl⟩

theorem send_measure (cfg : RenCfg) (g : GenState) (t : List RSlot)
    (hle : g.tr_index ≤ g.tr_data.length)
    (h : (send cfg g t).2.2 ≠ SendRes.stop) :
    genMeasure (send cfg g t).1 < genMeasure g := by
  obtain ⟨td, ad, ti, ai, ov, df, uq⟩ := g
  simp only at hle
  cases df with
  | cons hd rest =>
    obtain ⟨tb, ab⟩ := hd
    have hk := sendAttempt_keeps cfg ⟨td, ad, ti, ai, ov, rest, uq⟩ t (pyIdx td tb) ab
      (ab + (pyIdx td tb).reads) (ab + (pyIdx td tb).reads)
      (ab + (pyIdx td tb).reads + (pyIdx td tb).writes)
    show genMeasure (sendAttempt cfg ⟨td, ad, ti, ai, ov, rest, uq⟩ t (pyIdx td tb) ab
      (ab + (pyIdx td tb).reads) (ab + (pyIdx td tb).reads)
      (ab + (pyIdx td tb).reads + (pyIdx td tb).writes)).1 <
      genMeasure ⟨td, ad, ti, ai, ov, (tb, ab) :: rest, uq⟩
    unfold genMeasure
    rw [hk.1, hk.2.1, hk.2.2]
    simp
  | nil =>
    by_cases hidx : ti = td.length
    · exfalso
      apply h
      show (send cfg ⟨td, ad, ti, ai, ov, [], uq⟩ t).2.2 = SendRes.stop
      simp [send, hidx]
    · have hlt : ti < td.length := by omega
      have hk := sendAttempt_keeps cfg
        ⟨td, ad, ti + 1, ai + (td.getD ti default).reads + (td.getD ti default).writes,
          ov, [], uq⟩ t (td.getD ti default) ai (ai + (td.getD ti default).reads)
        (ai + (td.getD ti default).reads)
        (ai + (td.getD ti default).reads + (td.getD ti default).writes)
      simp only [send, if_neg hidx]
      unfold genMeasure
      rw [hk.1, hk.2.1, hk.2.2]
      simp
      omega

/-- The refill loop of `AbstractScheduler.run`
(`while self.pool_size is None or len(state.pending) + missing < self.pool_size`),
accumulating successes into `pending` and counting deferrals in
`missing`.  The explicit fuel bounds the loop; with `fuel = genMeasure g
+ 1` the zero-fuel case is unreachable because every non-`stop` `send`
strictly decreases `genMeasure` and at measure zero `send` stops. -/
def refillLoopF (cfg : RenCfg) (pool_size : Option Nat) :
    Nat → GenState → List RSlot → List (Transaction FiniteAddressSet) → Nat →
    GenState × List RSlot × List (Transaction FiniteAddressSet)
  | 0, g, t, pending, _ => (g, t, pending)
  | fuel + 1, g, t, pending, missing =>
    if (match pool_size with
        | none => true
        | some p => decide (pending.length + missing < p)) then
      match send cfg g t with
      | (g2, t2, SendRes.stop) => (g2, t2, pending)
      | (g2, t2, SendRes.failed) => refillLoopF cfg pool_size fuel g2 t2 pending (missing + 1)
      | (g2, t2, SendRes.tr tr) => refillLoopF cfg pool_size fuel g2 t2 (pending ++ [tr]) missing
    else (g, t, pending)

/-- The refill step with adequate fuel. -/
def refill (cfg : RenCfg) (pool_size : Option Nat) (g : GenState) (t : List RSlot)
    (pending : List (Transaction FiniteAddressSet)) :
    GenState × List RSlot × List (Transaction FiniteAddressSet) :=
  refillLoopF cfg pool_size (genMeasure g + 1) g t pending 0

/-- The two exceptions `AbstractScheduler.run` can raise: the fatal
"renaming table too small" `RuntimeError`, and the `IndexError` from
`state.cores[0]` on an empty core list. -/
inductive RunErr where
  | renamingTooSmall
  | indexError
deriving DecidableEq

/-- Python `set.update`: append members not already present. -/
def pyUpdate {α : Type} [DecidableEq α] (l new : List α) : List α :=
  new.foldl (fun acc tr => if tr ∈ acc then acc else acc ++ [tr]) l

/-- The per-batch loop at the end of `run`: for each `(batch, time)`
returned by `schedule`, produce a successor with the clock advanced by
the scheduling time; a non-empty batch moves from `pending` to
`scheduled`, an empty batch waits for the first core (reading
`cores[0]`, an `IndexError` when there is none). -/
def runCollect (s1 : MState) :
    List (TransactionSet FiniteAddressSet × Nat) → Except RunErr (List MState)
  | [] => .ok []
  | (batch, time) :: rest =>
    if batch.transactions.isEmpty then
      match s1.cores with
      | [] => .error .indexError
      | c :: _ =>
        match runCollect s1 rest with
        | .error e => .error e
        | .ok more => .ok ({ s1 with clock := max (s1.clock + time) c.clock } :: more)
    else
      match runCollect s1 rest with
      | .error e => .error e
      | .ok more =>
        .ok ({ s1 with
                clock := s1.clock + time,
                scheduled := pyUpdate s1.scheduled batch.transactions,
                pending := s1.pending.filter (fun tr => decide (tr ∉ batch.transactions)) }
          :: more)

/-- `AbstractScheduler.run`: skip when the execution queue is full,
refill the pending pool, raise when nothing could be accepted and no
core is running, wait when a core is running, and otherwise delegate to
the variant-specific `schedule` to build successor states. -/
def abstractRun (cfg : RenCfg) (pool_size queue_size : Option Nat)
    (schedFn : TransactionSet FiniteAddressSet → List (Transaction FiniteAddressSet) →
      Option Nat → List (TransactionSet FiniteAddressSet × Nat))
    (s : MState) : Except RunErr (List MState) :=
  if queue_size = some s.scheduled.length then
    match s.cores with
    | [] => .error .indexError
    | c :: _ => .ok [{ s with clock := max s.clock c.clock }]
  else
    let r := refill cfg pool_size s.incoming s.table s.pending
    let s1 : MState := { s with incoming := r.1, table := r.2.1, pending := r.2.2 }
    if r.2.2.isEmpty then
      match s.cores with
      | [] => .error .renamingTooSmall
      | c :: _ => .ok [{ s1 with clock := max s1.clock c.clock }]
    else
      runCollect s1 (schedFn
        (TransactionSet.ofList finU (finEmpty cfg.size)
          (s.cores.map FCore.transaction ++ s.scheduled))
        r.2.2 (queue_size.map (fun q => q - s.scheduled.length)))

theorem runCollect_no_renaming (s1 : MState) :
    ∀ l, runCollect s1 l ≠ Except.error RunErr.renamingTooSmall := by
  intro l
  induction l with
  | nil => simp [runCollect]
  | cons bt rest ih =>
    obtain ⟨batch, time⟩ := bt
    unfold runCollect
    by_cases hb : batch.transactions.isEmpty
    · rw [if_pos hb]
      cases s1.cores with
      | nil => simp
      | cons c cs =>
        cases hrec : runCollect s1 rest with
        | error e =>
          rw [hrec] at ih
          simp only
          intro hcontra
          exact ih (by rw [← hcontra])
        | ok more => simp
    · rw [if_neg hb]
      cases hrec : runCollect s1 rest with
      | error e =>
        rw [hrec] at ih
        simp only
        intro hcontra
        exact ih (by rw [← hcontra])
      | ok more => simp

/-- C8 (amended): `run` raises the fatal renaming-table error exactly
when the queue-full early return does not apply, the pending pool is
empty after the refill, and no core is running — regardless of whether
the source still holds deferred transactions; and when pending is empty
after the refill but a core is running, it returns exactly one successor
with `clock = max(clock, first core completion)` and the collections
(empty pending, scheduled, cores) unchanged. -/
theorem run_error_iff (cfg : RenCfg) (pool_size queue_size : Option Nat)
    (schedFn : TransactionSet FiniteAddressSet → List (Transaction FiniteAddressSet) →
      Option Nat → List (TransactionSet FiniteAddressSet × Nat))
    (s : MState) :
    (abstractRun cfg pool_size queue_size schedFn s =
        Except.error RunErr.renamingTooSmall ↔
      (queue_size ≠ some s.scheduled.length ∧
        (refill cfg pool_size s.incoming s.table s.pending).2.2 = [] ∧
        s.cores = [])) ∧
    (∀ c cs, queue_size ≠ some s.scheduled.length →
      (refill cfg pool_size s.incoming s.table s.pending).2.2 = [] →
      s.cores = c :: cs →
      abstractRun cfg pool_size queue_size schedFn s =
        Except.ok [{ s with
          incoming := (refill cfg pool_size s.incoming s.table s.pending).1,
          table := (refill cfg pool_size s.incoming s.table s.pending).2.1,
          pending := [],
          clock := max s.clock c.clock }]) := by
  constructor
  · unfold abstractRun
    by_cases hq : queue_size = some s.scheduled.length
    · rw [if_pos hq]
      cases s.cores with
      | nil => simp [hq]
      | cons c cs => simp [hq]
    · rw [if_neg hq]
      by_cases hpend : (refill cfg pool_size s.incoming s.table s.pending).2.2.isEmpty
      · simp only [hpend, if_true]
        cases hcore : s.cores with
        | nil =>
          simp only [List.isEmpty_eq_true] at hpend
          simp [hq, hpend, hcore]
        | cons c cs => simp [hq, hcore]
      · simp only [hpend, if_false]
        constructor
        · intro hcontra
          exact absurd hcontra (runCollect_no_renaming _ _)
        · rintro ⟨-, hnil, -⟩
          rw [List.isEmpty_eq_true] at hpend
          exact absurd hnil hpend
  · intro c cs hq hpend hcore
    unfold abstractRun
    rw [if_neg hq]
    have hempty : (refill cfg pool_size s.incoming s.table s.pending).2.2.isEmpty := by
      rw [List.isEmpty_eq_true, hpend]
    simp only [hempty, if_true, hcore]
    rw [hpend]

def c8gen : GenState := ⟨[], [], 0, 0, [], [], 0⟩

def c8state : MState := ⟨c8gen, allFree 1, [], [], 1, [], 0⟩

/-- Counterexample to C8 as stated: an exhausted source (no templates,
no overflowed, no deferred entries), empty pending and no running
cores.  `run` raises the fatal renaming-table error even though the
source has no pending deferred transactions, refuting the claim's
"... and the source still has pending deferred transactions". -/
theorem run_raises_without_deferred :
    abstractRun ⟨1, 1⟩ none none (greedySchedule finU finDis (finEmpty 1) 0) c8state =
      Except.error RunErr.renamingTooSmall ∧
    genBool c8state.incoming = false ∧
    c8state.incoming.overflowed = [] ∧
    c8state.incoming.deferred = [] :=
  ⟨rfl, by decide, rfl, rfl⟩

def c8tr : Transaction FiniteAddressSet := ⟨0, finEmpty 1, finEmpty 1, 4⟩

def c8state2 : MState := ⟨c8gen, allFree 1, [], [], 1, [⟨9, c8tr⟩], 2⟩

theorem run_error_iff_witness :
    abstractRun ⟨1, 1⟩ none none (greedySchedule finU finDis (finEmpty 1) 0) c8state2 =
      Except.ok [{ c8state2 with
        incoming := (refill ⟨1, 1⟩ none c8state2.incoming c8state2.table c8state2.pending).1,
        table := (refill ⟨1, 1⟩ none c8state2.incoming c8state2.table c8state2.pending).2.1,
        pending := [],
        clock := max c8state2.clock 9 }] :=
  (run_error_iff ⟨1, 1⟩ none none (greedySchedule finU finDis (finEmpty 1) 0)
    c8state2).2 ⟨9, c8tr⟩ [] (by decide) (by decide) (by decide)

/-! ### `MachineState.copy` and reference sharing (`pmtypes.MachineState.copy`)

`copy.copy` duplicates an object's `__dict__` shallowly: scalar fields
become independent, but fields holding mutable containers keep the same
reference.  To make this observable in a pure embedding we model Python
object identity for the maker's `table` list with a small heap indexed
by references. -/

/-- A heap of renaming tables; a `Nat` reference selects one.  Models
Python object identity for `FiniteAddressSetMaker.table`. -/
abbrev PyHeap := List (List RSlot)

/-- `FiniteAddressSetMaker` as a Python object: `size`/`n_hash_funcs`
are values stored inline, `table` is a reference to a heap-allocated
list (`self.table = [(-1, 0)] * factory.size`). -/
structure PyFiniteMaker where
  size : Nat
  n_hash_funcs : Nat
  tableRef : Nat
deriving DecidableEq

/-- The maker-relevant slice of `MachineState`. -/
structure PyMachineState where
  intset_maker : PyFiniteMaker
  pending : List Nat
deriving DecidableEq

/-- `copy.copy(self.intset_maker)`: a new object with the same field
values — the scalars are duplicated, and `table` is the same list
reference (no `__copy__` is defined, so the list is not cloned). -/
def copyMaker (m : PyFiniteMaker) : PyFiniteMaker :=
  ⟨m.size, m.n_hash_funcs, m.tableRef⟩

/-- The maker-relevant part of `MachineState.copy`: shallow-copy the
maker and rebuild the containers (`set(self.pending)`). -/
def machineCopy (s : PyMachineState) : PyMachineState :=
  ⟨copyMaker s.intset_maker, s.pending⟩

/-- Dereference a table. -/
def heapRead (h : PyHeap) (r : Nat) : List RSlot := h.getD r []

/-- In-place update of a heap-allocated table. -/
def heapWrite (h : PyHeap) (r : Nat) (t : List RSlot) : PyHeap := h.set r t

/-- Inserting an address through a maker (`renaming_table[obj]` inside
`FiniteAddressSet.__init__`) mutates the heap list the maker refers
to. -/
def makerInsert (cfg : RenCfg) (h : PyHeap) (m : PyFiniteMaker) (x : Nat) : PyHeap :=
  match tableInsert cfg (heapRead h m.tableRef) x with
  | none => h
  | some (t2, _) => heapWrite h m.tableRef t2

def c9m : PyFiniteMaker := ⟨1, 1, 0⟩

def c9s1 : PyMachineState := ⟨c9m, []⟩

def c9s2 : PyMachineState := machineCopy c9s1

def c9heap : PyHeap := [allFree 1]

def c9heap2 : PyHeap := makerInsert ⟨1, 1⟩ c9heap c9s2.intset_maker 0

/-- C9, evaluated on a concrete state: after `MachineState.copy`, the
copy's maker holds the same `table` reference as the original, so an
insertion performed through the copy is observable through the original
state's maker (the original's table changes from all-free to holding
address 0), contradicting the claimed isolation of branches. -/
theorem copy_shares_renaming_table :
    c9s2.intset_maker.tableRef = c9s1.intset_maker.tableRef ∧
    heapRead c9heap c9s1.intset_maker.tableRef = allFree 1 ∧
    heapRead c9heap2 c9s1.intset_maker.tableRef = [(some 0, 1)] :=
  ⟨rfl, rfl, by decide⟩

/-! ### The driver over exact (Ideal) sets and the no-concurrent-conflict
invariant (`schedulers.AbstractScheduler.run`, driver of the spec) -/

/-- Exact-set conflict freedom between two transactions: no read-write,
write-read or write-write address overlap. -/
def pairCompat (t u : Transaction (Finset Nat)) : Prop :=
  t.read_set ∩ u.write_set = ∅ ∧ t.write_set ∩ u.read_set = ∅ ∧
    t.write_set ∩ u.write_set = ∅

theorem pairCompat_symm {t u : Transaction (Finset Nat)} (h : pairCompat t u) :
    pairCompat u t := by
  obtain ⟨h1, h2, h3⟩ := h
  exact ⟨by rw [Finset.inter_comm]; exact h2, by rw [Finset.inter_comm]; exact h1,
    by rw [Finset.inter_comm]; exact h3⟩

theorem disj_mono {A B A2 B2 : Finset Nat} (h : A ∩ B = ∅) (hA : A2 ⊆ A)
    (hB : B2 ⊆ B) : A2 ∩ B2 = ∅ :=
  Finset.subset_empty.mp (h ▸ Finset.inter_subset_inter hA hB)

theorem subset_unionReads {t : Transaction (Finset Nat)}
    {l : List (Transaction (Finset Nat))} (h : t ∈ l) :
    t.read_set ⊆ unionReads l := by
  induction l with
  | nil => exact absurd h (List.not_mem_nil _)
  | cons a rest ih =>
    unfold unionReads
    rcases List.mem_cons.mp h with rfl | hr
    · exact Finset.subset_union_left
    · exact (ih hr).trans Finset.subset_union_right

theorem subset_unionWrites {t : Transaction (Finset Nat)}
    {l : List (Transaction (Finset Nat))} (h : t ∈ l) :
    t.write_set ⊆ unionWrites l := by
  induction l with
  | nil => exact absurd h (List.not_mem_nil _)
  | cons a rest ih =>
    unfold unionWrites
    rcases List.mem_cons.mp h with rfl | hr
    · exact Finset.subset_union_left
    · exact (ih hr).trans Finset.subset_union_right

theorem unionReads_append (l1 l2 : List (Transaction (Finset Nat))) :
    unionReads (l1 ++ l2) = unionReads l1 ∪ unionReads l2 := by
  induction l1 with
  | nil => simp [unionReads]
  | cons a rest ih =>
    unfold unionReads at ih ⊢
    simp only [List.cons_append, List.foldr_cons, ih, Finset.union_assoc]

theorem unionWrites_append (l1 l2 : List (Transaction (Finset Nat))) :
    unionWrites (l1 ++ l2) = unionWrites l1 ∪ unionWrites l2 := by
  induction l1 with
  | nil => simp [unionWrites]
  | cons a rest ih =>
    unfold unionWrites at ih ⊢
    simp only [List.cons_append, List.foldr_cons, ih, Finset.union_assoc]

/-- A `TransactionSet` whose stored unions agree with its members (true
of every set built only by `add`s). -/
def ConsTS (c : TransactionSet (Finset Nat)) : Prop :=
  c.read_set = unionReads c.transactions ∧ c.write_set = unionWrites c.transactions

theorem ConsTS_empty : ConsTS (TransactionSet.empty ∅) := ⟨rfl, rfl⟩

theorem mem_add_iff {c : TransactionSet (Finset Nat)} {uni : Finset Nat → Finset Nat → Finset Nat}
    {t x : Transaction (Finset Nat)} :
    x ∈ (c.add uni t).transactions ↔ x ∈ c.transactions ∨ x = t := by
  unfold TransactionSet.add
  by_cases hmem : t ∈ c.transactions
  · rw [if_pos hmem]
    constructor
    · exact fun h => Or.inl h
    · rintro (h | rfl)
      · exact h
      · exact hmem
  · rw [if_neg hmem]
    simp

theorem ConsTS_add {c : TransactionSet (Finset Nat)} {t : Transaction (Finset Nat)}
    (h : ConsTS c) : ConsTS (c.add iUni t) := by
  obtain ⟨hr, hw⟩ := h
  unfold ConsTS TransactionSet.add iUni
  by_cases hmem : t ∈ c.transactions
  · rw [if_pos hmem]
    constructor
    · simp only
      rw [hr, Finset.union_eq_right.mpr (subset_unionReads hmem)]
    · simp only
      rw [hw, Finset.union_eq_right.mpr (subset_unionWrites hmem)]
  · rw [if_neg hmem]
    constructor
    · simp only
      rw [hr, unionReads_append]
      show t.read_set ∪ unionReads c.transactions =
        unionReads c.transactions ∪ unionReads [t]
      rw [Finset.union_comm]
      congr 1
      unfold unionReads
      simp
    · simp only
      rw [hw, unionWrites_append]
      show t.write_set ∪ unionWrites c.transactions =
        unionWrites c.transactions ∪ unionWrites [t]
      rw [Finset.union_comm]
      congr 1
      unfold unionWrites
      simp

theorem ConsTS_foldl_add {c : TransactionSet (Finset Nat)}
    (l : List (Transaction (Finset Nat))) (h : ConsTS c) :
    ConsTS (l.foldl (TransactionSet.add iUni) c) := by
  induction l generalizing c with
  | nil => exact h
  | cons t rest ih => exact ih (ConsTS_add h)

theorem ConsTS_ofList (l : List (Transaction (Finset Nat))) :
    ConsTS (TransactionSet.ofList iUni ∅ l) :=
  ConsTS_foldl_add l ConsTS_empty

theorem mem_foldl_add {uni : Finset Nat → Finset Nat → Finset Nat}
    (l : List (Transaction (Finset Nat))) (c : TransactionSet (Finset Nat))
    (x : Transaction (Finset Nat)) :
    x ∈ (l.foldl (TransactionSet.add uni) c).transactions ↔
      x ∈ c.transactions ∨ x ∈ l := by
  induction l generalizing c with
  | nil => simp
  | cons t rest ih =>
    simp only [List.foldl_cons, ih, mem_add_iff, List.mem_cons]
    tauto

theorem mem_ofList {uni : Finset Nat → Finset Nat → Finset Nat}
    (l : List (Transaction (Finset Nat))) (x : Transaction (Finset Nat)) :
    x ∈ (TransactionSet.ofList uni ∅ l).transactions ↔ x ∈ l := by
  unfold TransactionSet.ofList
  rw [mem_foldl_add]
  simp [TransactionSet.empty]

/-- On a consistent set, a successful `compatible` check certifies
conflict freedom against every member. -/
theorem compatible_to_members {c : TransactionSet (Finset Nat)}
    {tr : Transaction (Finset Nat)} (hcons : ConsTS c)
    (h : TransactionSet.compatible iDis c tr = true) :
    ∀ u ∈ c.transactions, pairCompat tr u := by
  intro u hu
  have hne : ¬c.transactions.isEmpty = true := by
    simp only [List.isEmpty_eq_true]
    intro hnil
    rw [hnil] at hu
    exact List.not_mem_nil _ hu
  unfold TransactionSet.compatible TransactionSet.compatibleRW at h
  rw [if_neg hne] at h
  simp only [Bool.and_eq_true, iDis, decide_eq_true_eq] at h
  obtain ⟨⟨h1, h2⟩, h3⟩ := h
  rw [hcons.2] at h1 h3
  rw [hcons.1] at h2
  exact ⟨disj_mono h1 (Finset.Subset.refl _) (subset_unionWrites hu),
    disj_mono h2 (Finset.Subset.refl _) (subset_unionReads hu),
    disj_mono h3 (Finset.Subset.refl _) (subset_unionWrites hu)⟩

/-- A candidate set that is safe to dispatch next to `ongoing`:
consistent unions, every member conflict-free with every ongoing member,
and the members pairwise conflict-free. -/
def GoodSet (ongoing S : TransactionSet (Finset Nat)) : Prop :=
  ConsTS S ∧
  (∀ t ∈ S.transactions, ∀ u ∈ ongoing.transactions, pairCompat t u) ∧
  (∀ t ∈ S.transactions, ∀ u ∈ S.transactions, t ≠ u → pairCompat t u)

theorem GoodSet_empty (ongoing : TransactionSet (Finset Nat)) :
    GoodSet ongoing (TransactionSet.empty ∅) :=
  ⟨ConsTS_empty, fun _ ht => absurd ht (List.not_mem_nil _),
   fun _ ht => absurd ht (List.not_mem_nil _)⟩

theorem GoodSet_add {ongoing c : TransactionSet (Finset Nat)}
    {tr : Transaction (Finset Nat)} (hOng : ConsTS ongoing)
    (hg : GoodSet ongoing c)
    (h1 : TransactionSet.compatible iDis ongoing tr = true)
    (h2 : TransactionSet.compatible iDis c tr = true) :
    GoodSet ongoing (c.add iUni tr) := by
  obtain ⟨hcons, hvs, hpw⟩ := hg
  refine ⟨ConsTS_add hcons, ?_, ?_⟩
  · intro t ht u hu
    rcases mem_add_iff.mp ht with hold | rfl
    · exact hvs t hold u hu
    · exact compatible_to_members hOng h1 u hu
  · intro t ht u hu htu
    rcases mem_add_iff.mp ht with htold | rfl
    · rcases mem_add_iff.mp hu with huold | rfl
      · exact hpw t htold u huold htu
      · exact pairCompat_symm (compatible_to_members hcons h2 t htold)
    · rcases mem_add_iff.mp hu with huold | rfl
      · exact compatible_to_members hcons h2 u huold
      · exact absurd rfl htu

theorem greedyLoop_goodAcc (ongoing : TransactionSet (Finset Nat))
    (hOng : ConsTS ongoing) (maxCount : Option Nat) :
    ∀ (l : List (Transaction (Finset Nat))) (c : TransactionSet (Finset Nat)),
      GoodSet ongoing c →
      GoodSet ongoing (greedyLoop iUni iDis ongoing maxCount c l) := by
  intro l
  induction l with
  | nil => intro c hc; exact hc
  | cons t rest ih =>
    intro c hc
    by_cases hg : ongoing.compatible iDis t && c.compatible iDis t
    · obtain ⟨hg1, hg2⟩ := Bool.and_eq_true _ _ ▸ hg
      have hc2 : GoodSet ongoing (c.add iUni t) := GoodSet_add hOng hc hg1 hg2
      show GoodSet ongoing (greedyLoop iUni iDis ongoing maxCount c (t :: rest))
      unfold greedyLoop
      rw [if_pos hg]
      by_cases hbrk : maxCount = some (c.add iUni t).transactions.length
      · rw [if_pos hbrk]; exact hc2
      · rw [if_neg hbrk]; exact ih (c.add iUni t) hc2
    · show GoodSet ongoing (greedyLoop iUni iDis ongoing maxCount c (t :: rest))
      unfold greedyLoop
      rw [if_neg hg]
      exact ih c hc

theorem greedy_batch_good (ongoing : TransactionSet (Finset Nat))
    (pending : List (Transaction (Finset Nat))) (maxCount : Option Nat)
    (opTime : Nat) (hOng : ConsTS ongoing) :
    ∀ bt ∈ greedySchedule iUni iDis ∅ opTime ongoing pending maxCount,
      GoodSet ongoing bt.1 := by
  intro bt hbt
  unfold greedySchedule at hbt
  have hone : bt = (greedyLoop iUni iDis ongoing maxCount (TransactionSet.empty ∅) pending,
      opTime) := by simpa using hbt
  rw [hone]
  exact greedyLoop_goodAcc ongoing hOng maxCount pending _ (GoodSet_empty ongoing)

theorem GoodSet_ior {ongoing a b : TransactionSet (Finset Nat)}
    (ha : GoodSet ongoing a) (hb : GoodSet ongoing b)
    (hcompat : TransactionSet.compatibleTS iDis a b = true) :
    GoodSet ongoing (TransactionSet.ior iUni a b) := by
  obtain ⟨hacons, havs, hapw⟩ := ha
  obtain ⟨hbcons, hbvs, hbpw⟩ := hb
  have hmem : ∀ x, x ∈ (TransactionSet.ior iUni a b).transactions ↔
      x ∈ a.transactions ∨ x ∈ b.transactions := by
    intro x
    unfold TransactionSet.ior
    exact mem_foldl_add b.transactions a x
  have cross : ∀ t ∈ b.transactions, ∀ u ∈ a.transactions, pairCompat t u := by
    intro t ht u hu
    have hane : ¬a.transactions.isEmpty = true := by
      simp only [List.isEmpty_eq_true]
      intro hnil
      rw [hnil] at hu
      exact List.not_mem_nil _ hu
    unfold TransactionSet.compatibleTS TransactionSet.compatibleRW at hcompat
    rw [if_neg hane] at hcompat
    simp only [Bool.and_eq_true, iDis, decide_eq_true_eq] at hcompat
    obtain ⟨⟨hx1, hx2⟩, hx3⟩ := hcompat
    rw [hbcons.1] at hx1
    rw [hbcons.2] at hx2 hx3
    rw [hacons.2] at hx1 hx3
    rw [hacons.1] at hx2
    exact ⟨disj_mono hx1 (subset_unionReads ht) (subset_unionWrites hu),
      disj_mono hx2 (subset_unionWrites ht) (subset_unionReads hu),
      disj_mono hx3 (subset_unionWrites ht) (subset_unionWrites hu)⟩
  refine ⟨ConsTS_foldl_add b.transactions hacons, ?_, ?_⟩
  · intro t ht u hu
    rcases (hmem t).mp ht with h | h
    · exact havs t h u hu
    · exact hbvs t h u hu
  · intro t ht u hu htu
    rcases (hmem t).mp ht with h1 | h1 <;> rcases (hmem u).mp hu with h2 | h2
    · exact hapw t h1 u h2 htu
    · exact pairCompat_symm (cross u h2 t h1)
    · exact cross t h1 u h2
    · exact hbpw t h1 u h2 htu

theorem mergeRound_good (ongoing : TransactionSet (Finset Nat)) :
    ∀ l : List (TransactionSet (Finset Nat)),
      (∀ S ∈ l, GoodSet ongoing S) →
      ∀ S ∈ mergeRound iUni iDis l, GoodSet ongoing S
  | [] => by
    intro h S hS
    simp [mergeRound] at hS
  | [a] => by
    intro h S hS
    simp only [mergeRound, List.mem_singleton] at hS
    exact hS ▸ h a (by simp)
  | a :: b :: rest => by
    intro h S hS
    simp only [mergeRound, List.mem_cons] at hS
    rcases hS with rfl | hS
    · by_cases hc : a.compatibleTS iDis b
      · rw [if_pos hc]
        exact GoodSet_ior (h a (by simp)) (h b (by simp)) hc
      · rw [if_neg hc]
        exact h a (by simp)
    · exact mergeRound_good ongoing rest
        (fun T hT => h T (by simp [hT])) S hS

theorem tournLoop_good (ongoing : TransactionSet (Finset Nat)) :
    ∀ n, ∀ l : List (TransactionSet (Finset Nat)), l.length ≤ n →
      (∀ S ∈ l, GoodSet ongoing S) →
      ∀ S ∈ (tournLoop iUni iDis l).1, GoodSet ongoing S := by
  intro n
  induction n with
  | zero =>
    intro l hl h S hS
    rw [tournLoop, dif_pos (by omega)] at hS
    exact h S hS
  | succ n ih =>
    intro l hl h S hS
    by_cases h1 : l.length ≤ 1
    · rw [tournLoop, dif_pos h1] at hS
      exact h S hS
    · rw [tournLoop, dif_neg h1] at hS
      exact ih (mergeRound iUni iDis l) (by rw [mergeRound_length]; omega)
        (mergeRound_good ongoing l h) S hS

theorem tournament_batch_good (ongoing : TransactionSet (Finset Nat))
    (pending : List (Transaction (Finset Nat))) (maxCount : Option Nat)
    (isPipelined : Bool) (opTime : Nat) (hOng : ConsTS ongoing) :
    ∀ bt ∈ tournamentSchedule iUni iDis ∅ isPipelined opTime ongoing pending maxCount,
      GoodSet ongoing bt.1 := by
  intro bt hbt
  have hsets : ∀ S ∈ tournSets iUni iDis ∅ ongoing pending, GoodSet ongoing S := by
    intro S hS
    unfold tournSets at hS
    obtain ⟨tr, htr, rfl⟩ := List.mem_map.mp hS
    have hfil := List.mem_filter.mp htr
    exact GoodSet_add hOng (GoodSet_empty ongoing) hfil.2 rfl
  have hloop := tournLoop_good ongoing
    (tournSets iUni iDis ∅ ongoing pending).length
    (tournSets iUni iDis ∅ ongoing pending) (Nat.le_refl _) hsets
  unfold tournamentSchedule at hbt
  simp only [List.mem_singleton] at hbt
  rw [hbt]
  cases hres : (tournLoop iUni iDis (tournSets iUni iDis ∅ ongoing pending)).1 with
  | nil =>
    simp only [hres]
    exact GoodSet_empty ongoing
  | cons s0 srest =>
    have hs0 : GoodSet ongoing s0 := by
      apply hloop
      rw [hres]
      simp
    cases maxCount with
    | none => simpa [hres] using hs0
    | some m =>
      simp only [hres]
      obtain ⟨h0cons, h0vs, h0pw⟩ := hs0
      refine ⟨ConsTS_ofList _, ?_, ?_⟩
      · intro t ht u hu
        rw [mem_ofList] at ht
        exact h0vs t (List.take_subset m s0.transactions ht) u hu
      · intro t ht u hu htu
        rw [mem_ofList] at ht hu
        exact h0pw t (List.take_subset m s0.transactions ht)
          u (List.take_subset m s0.transactions hu) htu

theorem disj_unionReads {A : Finset Nat} {l : List (Transaction (Finset Nat))}
    (h : ∀ u ∈ l, A ∩ u.read_set = ∅) : A ∩ unionReads l = ∅ := by
  induction l with
  | nil => simp [unionReads]
  | cons a rest ih =>
    have hstep : unionReads (a :: rest) = a.read_set ∪ unionReads rest := rfl
    rw [hstep]
    have h1 : A ∩ a.read_set = ∅ := h a (by simp)
    have h2 : A ∩ unionReads rest = ∅ := ih fun u hu => h u (by simp [hu])
    rw [Finset.eq_empty_iff_forall_not_mem] at h1 h2 ⊢
    intro x hx
    rw [Finset.mem_inter, Finset.mem_union] at hx
    rcases hx.2 with hr | hr
    · exact h1 x (Finset.mem_inter.mpr ⟨hx.1, hr⟩)
    · exact h2 x (Finset.mem_inter.mpr ⟨hx.1, hr⟩)

theorem disj_unionWrites {A : Finset Nat} {l : List (Transaction (Finset Nat))}
    (h : ∀ u ∈ l, A ∩ u.write_set = ∅) : A ∩ unionWrites l = ∅ := by
  induction l with
  | nil => simp [unionWrites]
  | cons a rest ih =>
    have hstep : unionWrites (a :: rest) = a.write_set ∪ unionWrites rest := rfl
    rw [hstep]
    have h1 : A ∩ a.write_set = ∅ := h a (by simp)
    have h2 : A ∩ unionWrites rest = ∅ := ih fun u hu => h u (by simp [hu])
    rw [Finset.eq_empty_iff_forall_not_mem] at h1 h2 ⊢
    intro x hx
    rw [Finset.mem_inter, Finset.mem_union] at hx
    rcases hx.2 with hr | hr
    · exact h1 x (Finset.mem_inter.mpr ⟨hx.1, hr⟩)
    · exact h2 x (Finset.mem_inter.mpr ⟨hx.1, hr⟩)

/-- Converse of `compatible_to_members`: on a consistent set, conflict
freedom against every member certifies `compatible`. -/
theorem members_to_compatible {c : TransactionSet (Finset Nat)}
    {tr : Transaction (Finset Nat)} (hcons : ConsTS c)
    (h : ∀ u ∈ c.transactions, pairCompat tr u) :
    TransactionSet.compatible iDis c tr = true := by
  unfold TransactionSet.compatible TransactionSet.compatibleRW
  by_cases hne : c.transactions.isEmpty
  · rw [if_pos hne]
  · rw [if_neg hne]
    simp only [Bool.and_eq_true, iDis, decide_eq_true_eq]
    rw [hcons.1, hcons.2]
    exact ⟨⟨disj_unionWrites fun u hu => (h u hu).1,
            disj_unionReads fun u hu => (h u hu).2.1⟩,
           disj_unionWrites fun u hu => (h u hu).2.2⟩

/-- `GoodSet` transfers down a consistent set whose members all come
from a good set. -/
theorem GoodSet_of_mem {ongoing S2 S : TransactionSet (Finset Nat)}
    (hcons : ConsTS S2) (hsub : ∀ x ∈ S2.transactions, x ∈ S.transactions)
    (hg : GoodSet ongoing S) : GoodSet ongoing S2 :=
  ⟨hcons, fun t ht u hu => hg.2.1 t (hsub t ht) u hu,
   fun t ht u hu htu => hg.2.2 t (hsub t ht) u (hsub u hu) htu⟩

theorem allCandidateSets_good (ongoing : TransactionSet (Finset Nat))
    (hOng : ConsTS ongoing) :
    ∀ (l : List (Transaction (Finset Nat))) (pre : TransactionSet (Finset Nat)),
      GoodSet ongoing pre →
      ∀ S ∈ allCandidateSets iUni iDis ∅ ongoing pre l, GoodSet ongoing S := by
  intro l
  induction l with
  | nil =>
    intro pre hpre S hS
    simp only [allCandidateSets, List.mem_singleton] at hS
    exact hS ▸ hpre
  | cons tr rest ih =>
    intro pre hpre S hS
    simp only [allCandidateSets, List.mem_append] at hS
    rcases hS with hS | hS
    · exact ih pre hpre S hS
    · by_cases hg : ongoing.compatible iDis tr && pre.compatible iDis tr
      · rw [if_pos hg] at hS
        obtain ⟨hg1, hg2⟩ := Bool.and_eq_true _ _ ▸ hg
        have hrebuilt : GoodSet ongoing (TransactionSet.ofList iUni ∅ pre.transactions) :=
          GoodSet_of_mem (ConsTS_ofList _) (fun x hx => (mem_ofList _ _).mp hx) hpre
        have hcomp2 : TransactionSet.compatible iDis
            (TransactionSet.ofList iUni ∅ pre.transactions) tr = true :=
          members_to_compatible (ConsTS_ofList _)
            fun u hu => compatible_to_members hpre.1 hg2 u ((mem_ofList _ _).mp hu)
        exact ih _ (GoodSet_add hOng hrebuilt hg1 hcomp2) S hS
      · rw [if_neg hg] at hS
        exact absurd hS (List.not_mem_nil _)

theorem maximal_batch_good (ongoing : TransactionSet (Finset Nat))
    (pending : List (Transaction (Finset Nat))) (maxCount : Option Nat)
    (nSchedules opTime : Nat) (hOng : ConsTS ongoing) :
    ∀ bt ∈ maximalSchedule iUni iDis ∅ nSchedules opTime ongoing pending maxCount,
      GoodSet ongoing bt.1 := by
  intro bt hbt
  unfold maximalSchedule at hbt
  obtain ⟨cand, hcand, rfl⟩ := List.mem_map.mp hbt
  have hcand2 : cand ∈
      allCandidateSets iUni iDis ∅ ongoing (TransactionSet.empty ∅) pending := by
    unfold nlargestByLen at hcand
    exact List.mem_mergeSort.mp (List.take_subset _ _ hcand)
  have hg := allCandidateSets_good ongoing hOng pending _ (GoodSet_empty ongoing)
    cand hcand2
  cases maxCount with
  | none => exact hg
  | some m =>
    exact GoodSet_of_mem (ConsTS_ofList _)
      (fun x hx => List.take_subset m cand.transactions ((mem_ofList _ _).mp hx)) hg

/-- `pmtypes.Core` over exact sets. -/
structure ICore where
  clock : Nat
  transaction : Transaction (Finset Nat)
deriving DecidableEq

/-- `pmtypes.MachineState` over exact sets.  With the Ideal maker the
source never defers, so `incoming` is simply the list of transactions
still to be drawn. -/
structure IState where
  incoming : List (Transaction (Finset Nat))
  pending : List (Transaction (Finset Nat))
  scheduled : List (Transaction (Finset Nat))
  core_count : Nat
  cores : List ICore
  clock : Nat
deriving DecidableEq

/-- The transactions currently admitted for execution: on the cores or
cleared for dispatch. -/
def execList (s : IState) : List (Transaction (Finset Nat)) :=
  s.cores.map ICore.transaction ++ s.scheduled

/-- Pairwise conflict freedom of a collection of transactions. -/
def NoConflicts (l : List (Transaction (Finset Nat))) : Prop :=
  ∀ t ∈ l, ∀ u ∈ l, t ≠ u → pairCompat t u

theorem NoConflicts_subset {l l2 : List (Transaction (Finset Nat))}
    (hsub : ∀ x ∈ l2, x ∈ l) (h : NoConflicts l) : NoConflicts l2 :=
  fun t ht u hu htu => h t (hsub t ht) u (hsub u hu) htu

theorem mem_pyUpdate {α : Type} [DecidableEq α] (l new : List α) (x : α) :
    x ∈ pyUpdate l new ↔ x ∈ l ∨ x ∈ new := by
  induction new generalizing l with
  | nil => simp [pyUpdate]
  | cons n rest ih =>
    show x ∈ pyUpdate (if n ∈ l then l else l ++ [n]) rest ↔ _
    rw [ih]
    by_cases hn : n ∈ l
    · rw [if_pos hn]
      constructor
      · rintro (h | h)
        · exact Or.inl h
        · exact Or.inr (by simp [h])
      · rintro (h | h)
        · exact Or.inl h
        · rcases List.mem_cons.mp h with rfl | h2
          · exact Or.inl hn
          · exact Or.inr h2
    · rw [if_neg hn]
      simp only [List.mem_append, List.mem_singleton, List.mem_cons]
      tauto

/-- The refill step of `AbstractScheduler.run` specialised to the Ideal
maker: `send` never raises `ValueError`, so `missing` stays 0 and the
loop simply moves templates into `pending` until the pool bound is
reached or the source is exhausted. -/
def refillIdeal (pool : Option Nat)
    (inc pending : List (Transaction (Finset Nat))) :
    List (Transaction (Finset Nat)) × List (Transaction (Finset Nat)) :=
  match pool with
  | none => (pending ++ inc, [])
  | some p => (pending ++ inc.take (p - pending.length), inc.drop (p - pending.length))

/-- `AbstractScheduler.run` over the Ideal maker: early return when the
queue is full (waiting for the first core), refill, the fatal-error /
wait branch when pending stays empty (the `RuntimeError` yields no
successor state), and one successor per `(batch, time)` pair of the
variant's `schedule`.  An empty batch with no cores would be a Python
`IndexError`, aborting the run; it is modelled by a successor without
the clock wait (unreachable from driver-issued calls). -/
def idealSchedRun
    (schedFn : TransactionSet (Finset Nat) → List (Transaction (Finset Nat)) →
      Option Nat → List (TransactionSet (Finset Nat) × Nat))
    (pool queue : Option Nat) (s : IState) : List IState :=
  if queue = some s.scheduled.length then
    match s.cores with
    | [] => []
    | c :: _ => [{ s with clock := max s.clock c.clock }]
  else
    let r := refillIdeal pool s.incoming s.pending
    let s1 : IState := { s with pending := r.1, incoming := r.2 }
    if r.1.isEmpty then
      match s.cores with
      | [] => []
      | c :: _ => [{ s1 with clock := max s1.clock c.clock }]
    else
      (schedFn (TransactionSet.ofList iUni ∅ (execList s)) r.1
        (queue.map fun q => q - s.scheduled.length)).map fun bt =>
          if bt.1.transactions.isEmpty then
            match s1.cores with
            | [] => { s1 with clock := s1.clock + bt.2 }
            | c :: _ => { s1 with clock := max (s1.clock + bt.2) c.clock }
          else
            { s1 with
                clock := s1.clock + bt.2,
                scheduled := pyUpdate s1.scheduled bt.1.transactions,
                pending := s1.pending.filter fun tr => decide (tr ∉ bt.1.transactions) }

/-- One driver transition (spec section "Simulator driver", with the
scheduler taken from `schedulers.py`): a greedy, maximal or tournament
scheduler step, an executor dispatch, or a core completion.  The
executor and completion transitions are modelled from the spec: the
`MachineState` executors and the state-queue driver are not part of the
sources, which only ship the earlier-iteration
`executors.py`/`simulator.py`.  Dispatch moves a scheduled transaction
to a free core with completion clock `clock + tr.time`; completion pops
an earliest core. -/
inductive DriverStep (pool queue : Option Nat) (opTime : Nat) (isPipelined : Bool) :
    IState → IState → Prop
  | schedGreedy {s s' : IState} :
      s' ∈ idealSchedRun (greedySchedule iUni iDis ∅ opTime) pool queue s →
      DriverStep pool queue opTime isPipelined s s'
  | schedMaximal {s s' : IState} {nSchedules : Nat} :
      s' ∈ idealSchedRun (maximalSchedule iUni iDis ∅ nSchedules opTime)
        pool queue s →
      DriverStep pool queue opTime isPipelined s s'
  | schedTournament {s s' : IState} :
      s' ∈ idealSchedRun (tournamentSchedule iUni iDis ∅ isPipelined opTime)
        pool queue s →
      DriverStep pool queue opTime isPipelined s s'
  | execute {s : IState} {tr : Transaction (Finset Nat)} :
      tr ∈ s.scheduled → s.cores.length < s.core_count →
      DriverStep pool queue opTime isPipelined s
        { s with scheduled := s.scheduled.erase tr,
                 cores := s.cores ++ [⟨s.clock + tr.time, tr⟩] }
  | complete {s : IState} {c : ICore} :
      c ∈ s.cores → (∀ c2 ∈ s.cores, c.clock ≤ c2.clock) →
      DriverStep pool queue opTime isPipelined s
        { s with cores := s.cores.erase c, clock := max s.clock c.clock }

theorem schedRun_preserves
    (schedFn : TransactionSet (Finset Nat) → List (Transaction (Finset Nat)) →
      Option Nat → List (TransactionSet (Finset Nat) × Nat))
    (pool queue : Option Nat) (s s' : IState)
    (hgood : ∀ bt ∈ schedFn (TransactionSet.ofList iUni ∅ (execList s))
        (refillIdeal pool s.incoming s.pending).1
        (queue.map fun q => q - s.scheduled.length),
      GoodSet (TransactionSet.ofList iUni ∅ (execList s)) bt.1)
    (hs' : s' ∈ idealSchedRun schedFn pool queue s)
    (hinv : NoConflicts (execList s)) : NoConflicts (execList s') := by
  unfold idealSchedRun at hs'
  by_cases hq : queue = some s.scheduled.length
  · rw [if_pos hq] at hs'
    cases hcores : s.cores with
    | nil => rw [hcores] at hs'; exact absurd hs' (List.not_mem_nil _)
    | cons c cs =>
      rw [hcores] at hs'
      have : s' = { s with cores := c :: cs, clock := max s.clock c.clock } := by
        simpa using hs'
      rw [this]
      exact NoConflicts_subset (fun x hx => by
        unfold execList at hx ⊢
        simpa [hcores] using hx) hinv
  · rw [if_neg hq] at hs'
    simp only at hs'
    by_cases hempty : (refillIdeal pool s.incoming s.pending).1.isEmpty
    · rw [if_pos hempty] at hs'
      cases hcores : s.cores with
      | nil => rw [hcores] at hs'; exact absurd hs' (List.not_mem_nil _)
      | cons c cs =>
        rw [hcores] at hs'
        have hs'eq : s' = { s with
            pending := (refillIdeal pool s.incoming s.pending).1,
            incoming := (refillIdeal pool s.incoming s.pending).2,
            cores := c :: cs,
            clock := max s.clock c.clock } := by
          simpa using hs'
        rw [hs'eq]
        exact NoConflicts_subset (fun x hx => by
          unfold execList at hx ⊢
          simpa [hcores] using hx) hinv
    · rw [if_neg hempty] at hs'
      obtain ⟨bt, hbt, rfl⟩ := List.mem_map.mp hs'
      have hgb := hgood bt hbt
      by_cases hbe : bt.1.transactions.isEmpty
      · rw [if_pos hbe]
        cases hcores : s.cores with
        | nil =>
          exact NoConflicts_subset (fun x hx => by
            unfold execList at hx ⊢
            simpa [hcores] using hx) hinv
        | cons c cs =>
          exact NoConflicts_subset (fun x hx => by
            unfold execList at hx ⊢
            simpa [hcores] using hx) hinv
      · rw [if_neg hbe]
        intro t ht u hu htu
        have hmemt : t ∈ execList s ∨ t ∈ bt.1.transactions := by
          unfold execList at ht
          simp only [List.mem_append] at ht
          rcases ht with ht | ht
          · exact Or.inl (by unfold execList; exact List.mem_append_left _ ht)
          · rcases (mem_pyUpdate _ _ _).mp ht with h2 | h2
            · exact Or.inl (by unfold execList; exact List.mem_append_right _ h2)
            · exact Or.inr h2
        have hmemu : u ∈ execList s ∨ u ∈ bt.1.transactions := by
          unfold execList at hu
          simp only [List.mem_append] at hu
          rcases hu with hu | hu
          · exact Or.inl (by unfold execList; exact List.mem_append_left _ hu)
          · rcases (mem_pyUpdate _ _ _).mp hu with h2 | h2
            · exact Or.inl (by unfold execList; exact List.mem_append_right _ h2)
            · exact Or.inr h2
        obtain ⟨hgcons, hgvs, hgpw⟩ := hgb
        rcases hmemt with ht2 | ht2 <;> rcases hmemu with hu2 | hu2
        · exact hinv t ht2 u hu2 htu
        · exact pairCompat_symm (hgvs u hu2 t ((mem_ofList _ _).mpr ht2))
        · exact hgvs t ht2 u ((mem_ofList _ _).mpr hu2)
        · exact hgpw t ht2 u hu2 htu

/-- C1: along every driver-produced path (greedy, maximal or tournament
scheduler steps from `schedulers.py`, executor dispatch and core
completion from the spec's driver) starting from a state with no
scheduled transactions and idle cores, the transactions executing on
the cores are pairwise conflict-free under exact address sets: no
read-write, write-read or write-write overlap. -/
theorem driver_no_concurrent_conflict (pool queue : Option Nat) (opTime : Nat)
    (isPipelined : Bool) (s0 s : IState)
    (hc0 : s0.cores = []) (hs0 : s0.scheduled = [])
    (hreach : Relation.ReflTransGen (DriverStep pool queue opTime isPipelined) s0 s) :
    ∀ t ∈ s.cores.map ICore.transaction, ∀ u ∈ s.cores.map ICore.transaction,
      t ≠ u → pairCompat t u := by
  have hinv : NoConflicts (execList s) := by
    induction hreach with
    | refl =>
      intro t ht
      unfold execList at ht
      rw [hc0, hs0] at ht
      simp at ht
    | tail hpre hstep ih =>
      cases hstep with
      | schedGreedy hmem =>
        exact schedRun_preserves _ pool queue _ _
          (greedy_batch_good _ _ _ opTime (ConsTS_ofList _)) hmem ih
      | schedMaximal hmem =>
        exact schedRun_preserves _ pool queue _ _
          (maximal_batch_good _ _ _ _ opTime (ConsTS_ofList _)) hmem ih
      | schedTournament hmem =>
        exact schedRun_preserves _ pool queue _ _
          (tournament_batch_good _ _ _ isPipelined opTime (ConsTS_ofList _)) hmem ih
      | execute htr hcap =>
        refine NoConflicts_subset (fun x hx => ?_) ih
        unfold execList at hx ⊢
        simp only [List.map_append, List.mem_append, List.map_cons, List.map_nil,
          List.mem_cons, List.mem_singleton] at hx
        rcases hx with (hx | hx) | hx
        · exact List.mem_append_left _ hx
        · rcases hx with rfl | hx
          · exact List.mem_append_right _ htr
          · exact absurd hx (List.not_mem_nil _)
        · exact List.mem_append_right _ (List.mem_of_mem_erase hx)
      | complete hcmem hmin =>
        refine NoConflicts_subset (fun x hx => ?_) ih
        unfold execList at hx ⊢
        simp only [List.mem_append] at hx ⊢
        rcases hx with hx | hx
        · obtain ⟨c2, hc2, rfl⟩ := List.mem_map.mp hx
          exact Or.inl (List.mem_map_of_mem _ (List.mem_of_mem_erase hc2))
        · exact Or.inr hx
  intro t ht u hu htu
  exact hinv t (List.mem_append_left _ ht) u (List.mem_append_left _ hu) htu

def c1t1 : Transaction (Finset Nat) := ⟨1, {1}, {2}, 5⟩

def c1t2 : Transaction (Finset Nat) := ⟨2, {3}, {4}, 7⟩

def c1s0 : IState := ⟨[c1t1, c1t2], [], [], 2, [], 0⟩

def c1s1 : IState := ⟨[], [], [c1t1, c1t2], 2, [], 0⟩

def c1s2 : IState := ⟨[], [], [c1t2], 2, [⟨5, c1t1⟩], 0⟩

def c1s3 : IState := ⟨[], [], [], 2, [⟨5, c1t1⟩, ⟨7, c1t2⟩], 0⟩

theorem driver_no_concurrent_conflict_witness :
    c1s0.cores = [] ∧
    ∀ t ∈ c1s3.cores.map ICore.transaction, ∀ u ∈ c1s3.cores.map ICore.transaction,
      t ≠ u → pairCompat t u := by
  have h1 : DriverStep none none 0 false c1s0 c1s1 :=
    DriverStep.schedGreedy (by decide)
  have h2 : DriverStep none none 0 false c1s1 c1s2 :=
    @DriverStep.execute none none 0 false c1s1 c1t1 (by decide) (by decide)
  have h3 : DriverStep none none 0 false c1s2 c1s3 :=
    @DriverStep.execute none none 0 false c1s2 c1t2 (by decide) (by decide)
  exact ⟨rfl, driver_no_concurrent_conflict none none 0 false c1s0 c1s3 rfl rfl
    (Relation.ReflTransGen.tail (Relation.ReflTransGen.tail
      (Relation.ReflTransGen.tail Relation.ReflTransGen.refl h1) h2) h3)⟩

end PM
